import Mathlib

/-!
# DataProcessor: a verification development

A shallow embedding of `src/DataProcessor.cpp` (class `DataProcessor`) and theorems about it.

Modelling conventions.

* `std::vector<double>` is a `List α`; an element read `v[i]` is `v.getD i 0`, and the
  in-range facts for every index the program computes are proved separately.
* The *values* held in vectors and returned by caller functions live in an arbitrary linearly
  ordered field `α` (exact arithmetic): `ℚ` for concrete evaluation, `ℝ` where the real square
  root is wanted.  `std::sqrt` is a parameter of `calculateStats`.
* The one place where floating point decides *which element is read* is the percentile index
  `static_cast<size_t>(p / 100.0 * (size - 1))`.  That expression is modelled bit-exactly:
  binary64 values are dyadic numbers `man * 2 ^ exp` and every operation rounds to 53 significant
  bits, ties to even (`roundQuot`).
* `size_t` is `ℕ` and an `int` is an element of `ℤ` between `-2 ^ 31` and `INT_MAX`.  Where
  `int` arithmetic can leave that range it is reduced to 32 bits (`wrapInt`): that is `n++` in
  `integrate_simpson` and `++i` in `sum_series` and `product_series`, each at `INT_MAX`.  A loop
  that may then run for ever is given a bound on the number of its tests and returns an
  `Option`.
* A vector of more than `2 ^ 53` doubles (64 PiB) cannot be held by any machine; statements
  about the percentile index of the last position carry the bound `data.length ≤ 2 ^ 53`.
* `std::sort` on a linear order is determined by its contract (the sorted permutation is unique,
  see `std_sort_unique`); it is modelled by insertion sort.
-/

set_option maxRecDepth 100000

namespace DataProcessor

/-! ## Binary64 arithmetic used by the percentile index -/

/-- A finite non-negative binary64 value, `man * 2 ^ exp`. -/
structure Double where
  man : ℕ
  exp : ℤ
deriving DecidableEq

/-- The rational number a `Double` stands for. -/
def Double.toRat (x : Double) : ℚ := (x.man : ℚ) * (2 : ℚ) ^ x.exp

/-- Quotient `num / den` rounded to the nearest natural number, ties to the even one. -/
def divRoundEven (num den : ℕ) : ℕ :=
  let q := num / den
  let r := num % den
  if 2 * r < den then q
  else if den < 2 * r then q + 1
  else if q % 2 = 0 then q else q + 1

/-- Binary logarithm by repeated halving, `fuel` bounding the number of halvings. -/
def bitLog : ℕ → ℕ → ℕ
  | 0, _ => 0
  | fuel + 1, n => if n < 2 then 0 else bitLog fuel (n / 2) + 1

/-- Floor of the binary logarithm of a positive natural number. -/
def ilog2 (n : ℕ) : ℕ := bitLog n n

/-- The exponent `e` with `2 ^ e ≤ a / b < 2 ^ (e + 1)`, for positive `a` and `b`. -/
def floorLog2 (a b : ℕ) : ℤ :=
  if b * 2 ^ ilog2 a ≤ a * 2 ^ ilog2 b then (ilog2 a : ℤ) - ilog2 b
  else (ilog2 a : ℤ) - ilog2 b - 1

/-- The binary64 value nearest to `a / b` (round to nearest, ties to even; 53-bit significand,
exponent range not limited). -/
def roundQuot (a b : ℕ) : Double :=
  if a = 0 then ⟨0, 0⟩
  else
    let s : ℤ := floorLog2 a b - 52
    ⟨divRoundEven (a * 2 ^ (-s).toNat) (b * 2 ^ s.toNat), s⟩

/-- Conversion of a non-negative integer (`int` or `size_t`) to `double`. -/
def Double.ofNat (n : ℕ) : Double := roundQuot n 1

/-- Binary64 division `x / y`, for `y ≠ 0`. -/
def Double.div (x y : Double) : Double :=
  roundQuot (x.man * 2 ^ (x.exp - y.exp).toNat) (y.man * 2 ^ (y.exp - x.exp).toNat)

/-- Binary64 multiplication `x * y`. -/
def Double.mul (x y : Double) : Double :=
  roundQuot (x.man * y.man * 2 ^ (x.exp + y.exp).toNat) (2 ^ (-(x.exp + y.exp)).toNat)

/-- The conversion `static_cast<size_t>(x)`: truncation towards zero. -/
def Double.toSizeT (x : Double) : ℕ := x.man * 2 ^ x.exp.toNat / 2 ^ (-x.exp).toNat

/-! ## The operations of `DataProcessor` -/

section Order

variable {α : Type} [LinearOrder α]

/-- Model of `std::sort(first, last)`: ascending by `<`. -/
def std_sort (l : List α) : List α := l.insertionSort (· ≤ ·)

/-- `DataProcessor::sort_data`: sort a copy of the input. -/
def sort_data (data : List α) : List α :=
  let sorted_data := data
  std_sort sorted_data

/-- `DataProcessor::filter`: keep, in order, the values above the threshold. -/
def filter (data : List α) (threshold : α) : List α :=
  data.foldl
    (fun (result : List α) (value : α) => if value > threshold then result ++ [value] else result)
    []

end Order

/-- The largest `int`. -/
def INT_MAX : ℤ := 2147483647

/-- The `int` left by an arithmetic result `z` that is reduced to 32 bits (two's-complement
wrap-around); it is `z` itself when `z` is an `int`. -/
def wrapInt (z : ℤ) : ℤ := (z + 2147483648) % 4294967296 - 2147483648

/-- The index `static_cast<size_t>(p / 100.0 * (size - 1))` of `calculate_percentiles`, as the
machine computes it, for a vector of `size` elements. -/
def percentile_index (p size : ℕ) : ℕ :=
  Double.toSizeT
    (Double.mul (Double.div (Double.ofNat p) (Double.ofNat 100)) (Double.ofNat (size - 1)))

section Field

variable {α : Type} [LinearOrderedField α]

/-- `DataProcessor::calculateStats`: `[mean, median, standard deviation]`. -/
def calculateStats (sqrt : α → α) (data : List α) : List α :=
  if data.isEmpty then [0, 0, 0]
  else
    let sum := data.foldl (fun acc x => acc + x) 0
    let mean := sum / (data.length : α)
    let sorted_data := std_sort data
    let median :=
      if sorted_data.length % 2 = 0 then
        (sorted_data.getD (sorted_data.length / 2 - 1) 0
          + sorted_data.getD (sorted_data.length / 2) 0) / 2
      else sorted_data.getD (sorted_data.length / 2) 0
    let sq_sum := (data.zip data).foldl (fun acc xy => acc + xy.1 * xy.2) 0
    let stdev := sqrt (sq_sum / (data.length : α) - mean * mean)
    [mean, median, stdev]

/-- `DataProcessor::transform`: multiply every element by `factor`. -/
def transform (data : List α) (factor : α) : List α :=
  (List.range data.length).map (fun (i : ℕ) => data.getD i 0 * factor)

/-- The loop `for (int p = 0; p <= 100; p += 5)` of `calculate_percentiles`, entered with the
loop variable at `p` and the values pushed so far. -/
def percentile_loop (sorted_data : List α) (p : ℕ) (percentiles : List α) : List α :=
  if p ≤ 100 then
    percentile_loop sorted_data (p + 5)
      (percentiles ++ [sorted_data.getD (percentile_index p sorted_data.length) 0])
  else percentiles
termination_by 101 - p

/-- `DataProcessor::calculate_percentiles`. -/
def calculate_percentiles (data : List α) : List α :=
  if data.isEmpty then []
  else
    let sorted_data := std_sort data
    percentile_loop sorted_data 0 []

/-- Left end of the window of `calculate_rolling_mean` at index `i`. -/
def window_start (i window : ℕ) : ℕ := if i ≥ window then i - window else 0

/-- `DataProcessor::calculate_rolling_mean`. -/
def calculate_rolling_mean (data : List α) (window : ℕ) : List α :=
  if data.isEmpty then []
  else
    (List.range data.length).map (fun (i : ℕ) =>
      let start := window_start i window
      let sum := (List.range' start (i + 1 - start)).foldl
        (fun (sum : α) (j : ℕ) => sum + data.getD j 0) 0
      sum / ((i - start + 1 : ℕ) : α))

/-- `DataProcessor::integrate_rectangle` (midpoint rule). -/
def integrate_rectangle (f : α → α) (a b : α) (n : ℤ) : α :=
  let width := (b - a) / (n : α)
  let sum := (List.range n.toNat).foldl
    (fun (sum : α) (i : ℕ) => sum + f (a + ((i : α) + 1 / 2) * width)) 0
  sum * width

/-- `DataProcessor::integrate_trapezoid`. -/
def integrate_trapezoid (f : α → α) (a b : α) (n : ℤ) : α :=
  let width := (b - a) / (n : α)
  let sum := (List.range' 1 (n.toNat - 1)).foldl
    (fun (sum : α) (i : ℕ) => sum + f (a + (i : α) * width)) (1 / 2 * (f a + f b))
  sum * width

/-- `DataProcessor::integrate_simpson`; the increment `n++` is an `int` increment. -/
def integrate_simpson (f : α → α) (a b : α) (n : ℤ) : α :=
  let n := if n % 2 ≠ 0 then wrapInt (n + 1) else n
  let width := (b - a) / (n : α)
  let sum := (List.range' 1 (n.toNat - 1)).foldl
    (fun (sum : α) (i : ℕ) => sum + f (a + (i : α) * width) * (if i % 2 = 0 then 2 else 4))
      (f a + f b)
  sum * width / 3

/-- The loop `for (int i = 1; i <= n; ++i) acc = step(acc, i)` of the two series functions,
entered with the loop variable at `i` and the accumulator at `acc`.  `fuel` bounds the number of
loop tests; `none` means that the loop has not ended within them. -/
def series_loop (step : α → ℤ → α) (n : ℤ) : ℕ → ℤ → α → Option α
  | 0, _, _ => none
  | fuel + 1, i, acc =>
    if i ≤ n then series_loop step n fuel (wrapInt (i + 1)) (step acc i) else some acc

/-- `DataProcessor::sum_series`, run for at most `fuel` loop tests. -/
def sum_series (term : ℤ → α) (n : ℤ) (fuel : ℕ) : Option α :=
  series_loop (fun (sum : α) (i : ℤ) => sum + term i) n fuel 1 0

/-- `DataProcessor::product_series`, run for at most `fuel` loop tests. -/
def product_series (term : ℤ → α) (n : ℤ) (fuel : ℕ) : Option α :=
  series_loop (fun (product : α) (i : ℤ) => product * term i) n fuel 1 1

/-- Specification side of the variance claim, following the spec's words: the two-pass
population variance, the mean of the squared deviations from the mean. -/
def two_pass_variance (data : List α) : α :=
  let mean := data.sum / (data.length : α)
  (data.map (fun x => (x - mean) ^ 2)).sum / (data.length : α)

/-! ### The quadrature rules with the calls of `f` recorded

Each function below is the rule above with the state extended by the list of arguments at which
`f` has been called so far, in call order. -/

/-- `integrate_rectangle`, returning the result and the arguments of the calls of `f`. -/
def integrate_rectangle_calls (f : α → α) (a b : α) (n : ℤ) : α × List α :=
  let width := (b - a) / (n : α)
  let st := (List.range n.toNat).foldl
    (fun (st : α × List α) (i : ℕ) =>
      let x := a + ((i : α) + 1 / 2) * width
      (st.1 + f x, st.2 ++ [x])) (0, [])
  (st.1 * width, st.2)

/-- `integrate_trapezoid`, returning the result and the arguments of the calls of `f`. -/
def integrate_trapezoid_calls (f : α → α) (a b : α) (n : ℤ) : α × List α :=
  let width := (b - a) / (n : α)
  let st := (List.range' 1 (n.toNat - 1)).foldl
    (fun (st : α × List α) (i : ℕ) =>
      let x := a + (i : α) * width
      (st.1 + f x, st.2 ++ [x])) (1 / 2 * (f a + f b), [a, b])
  (st.1 * width, st.2)

/-- `integrate_simpson`, returning the result and the arguments of the calls of `f`. -/
def integrate_simpson_calls (f : α → α) (a b : α) (n : ℤ) : α × List α :=
  let n := if n % 2 ≠ 0 then wrapInt (n + 1) else n
  let width := (b - a) / (n : α)
  let st := (List.range' 1 (n.toNat - 1)).foldl
    (fun (st : α × List α) (i : ℕ) =>
      let x := a + (i : α) * width
      (st.1 + f x * (if i % 2 = 0 then 2 else 4), st.2 ++ [x])) (f a + f b, [a, b])
  (st.1 * width / 3, st.2)

end Field

/-! ## Facts about `int` arithmetic -/

theorem wrapInt_of_int (z : ℤ) (h1 : -2147483648 ≤ z) (h2 : z ≤ INT_MAX) : wrapInt z = z := by
  unfold INT_MAX at h2
  unfold wrapInt
  omega

theorem wrapInt_emod_two (z : ℤ) : wrapInt z % 2 = z % 2 := by
  unfold wrapInt
  omega

theorem wrapInt_le (z : ℤ) : wrapInt z ≤ INT_MAX := by
  unfold wrapInt INT_MAX
  omega

theorem wrapInt_succ_int_max : wrapInt (INT_MAX + 1) = -2147483648 := by
  unfold wrapInt INT_MAX
  norm_num

/-! ## Facts about the binary64 model -/

theorem bitLog_spec (fuel : ℕ) : ∀ n, 0 < n → n ≤ fuel →
    2 ^ bitLog fuel n ≤ n ∧ n < 2 ^ (bitLog fuel n + 1) := by
  induction fuel with
  | zero => intro n h0 h; omega
  | succ fuel ih =>
    intro n h0 h
    unfold bitLog
    split_ifs with h2
    · simp only [pow_zero, zero_add, pow_one]; omega
    · have := ih (n / 2) (by omega) (by omega)
      rw [pow_succ, pow_succ]
      omega

theorem ilog2_spec (n : ℕ) (h : 0 < n) : 2 ^ ilog2 n ≤ n ∧ n < 2 ^ (ilog2 n + 1) :=
  bitLog_spec n n h le_rfl

theorem zpow_two_split (t : ℤ) :
    (2 : ℚ) ^ t = (2 : ℚ) ^ t.toNat / (2 : ℚ) ^ (-t).toNat := by
  rcases le_total 0 t with h | h
  · obtain ⟨k, rfl⟩ := Int.eq_ofNat_of_zero_le h
    simp
  · obtain ⟨k, hk⟩ := Int.eq_ofNat_of_zero_le (neg_nonneg.mpr h)
    have : t = -(k : ℤ) := by omega
    subst this
    simp

theorem floorLog2_spec (a b : ℕ) (ha : 0 < a) (hb : 0 < b) :
    (2 : ℚ) ^ floorLog2 a b * b ≤ a ∧ (a : ℚ) < (2 : ℚ) ^ (floorLog2 a b + 1) * b := by
  obtain ⟨ha1, ha2⟩ := ilog2_spec a ha
  obtain ⟨hb1, hb2⟩ := ilog2_spec b hb
  have ha1q : (2 : ℚ) ^ ilog2 a ≤ a := by exact_mod_cast ha1
  have ha2q : (a : ℚ) < 2 ^ (ilog2 a + 1) := by exact_mod_cast ha2
  have hb1q : (2 : ℚ) ^ ilog2 b ≤ b := by exact_mod_cast hb1
  have hb2q : (b : ℚ) < 2 ^ (ilog2 b + 1) := by exact_mod_cast hb2
  have hA : (0 : ℚ) < 2 ^ ilog2 a := by positivity
  have hB : (0 : ℚ) < 2 ^ ilog2 b := by positivity
  have hbq : (0 : ℚ) < b := by exact_mod_cast hb
  have e1 : (2 : ℚ) ^ ((ilog2 a : ℤ) - ilog2 b) = 2 ^ ilog2 a / 2 ^ ilog2 b := by
    rw [zpow_sub₀ (by norm_num)]; simp
  have e2 : (2 : ℚ) ^ ((ilog2 a : ℤ) - ilog2 b - 1) = 2 ^ ilog2 a / 2 ^ ilog2 b / 2 := by
    rw [zpow_sub₀ (by norm_num), e1]; simp
  have e3 : (2 : ℚ) ^ ((ilog2 a : ℤ) - ilog2 b + 1) = 2 ^ ilog2 a / 2 ^ ilog2 b * 2 := by
    rw [zpow_add₀ (by norm_num), e1]; simp
  unfold floorLog2
  split_ifs with h
  · have hq : (b : ℚ) * 2 ^ ilog2 a ≤ a * 2 ^ ilog2 b := by exact_mod_cast h
    rw [e1, e3]
    constructor
    · rw [div_mul_eq_mul_div, div_le_iff₀ hB]; linarith
    · rw [div_mul_eq_mul_div, div_mul_eq_mul_div, lt_div_iff₀ hB]
      rw [pow_succ] at ha2q
      nlinarith
  · have hq : (a : ℚ) * 2 ^ ilog2 b < b * 2 ^ ilog2 a := by
      have := not_le.mp h
      exact_mod_cast this
    rw [e2, sub_add_cancel, e1]
    constructor
    · rw [div_div, div_mul_eq_mul_div, div_le_iff₀ (by positivity)]
      rw [pow_succ] at hb2q
      nlinarith
    · rw [div_mul_eq_mul_div, lt_div_iff₀ hB]; linarith

theorem divRoundEven_le (num den M : ℕ) (hden : 0 < den) (h : num ≤ M * den) :
    divRoundEven num den ≤ M := by
  have hq : num / den ≤ M := Nat.div_le_of_le_mul (by rw [Nat.mul_comm]; exact h)
  have hdm := Nat.div_add_mod num den
  unfold divRoundEven
  simp only
  rcases Nat.lt_or_ge (num / den) M with hlt | hge
  · split_ifs <;> omega
  · have hqM : num / den = M := le_antisymm hq hge
    have hr : num % den = 0 := by
      rw [hqM, Nat.mul_comm] at hdm
      omega
    rw [hr, hqM]
    simp [hden]

theorem divRoundEven_one (n : ℕ) : divRoundEven n 1 = n := by
  simp [divRoundEven, Nat.mod_one]

theorem Double.toRat_nonneg (x : Double) : 0 ≤ x.toRat := by
  unfold Double.toRat
  positivity

theorem Double.toSizeT_eq_floor (x : Double) : x.toSizeT = ⌊x.toRat⌋₊ := by
  unfold Double.toSizeT Double.toRat
  rw [zpow_two_split x.exp, ← mul_div_assoc]
  have h : (x.man : ℚ) * 2 ^ x.exp.toNat / 2 ^ (-x.exp).toNat
      = ((x.man * 2 ^ x.exp.toNat : ℕ) : ℚ) / ((2 ^ (-x.exp).toNat : ℕ) : ℚ) := by
    push_cast; rfl
  rw [h, Nat.floor_div_eq_div]

theorem Double.toSizeT_le (x : Double) (N : ℕ) (h : x.toRat ≤ N) : x.toSizeT ≤ N := by
  rw [Double.toSizeT_eq_floor]
  exact Nat.floor_le_of_le h

/-- The exponent chosen by `roundQuot` is at most `52` when the quotient is below `2 ^ 53`. -/
theorem floorLog2_le_of_lt (a b N : ℕ) (ha : 0 < a) (hb : 0 < b) (h : a ≤ N * b)
    (hN : N < 2 ^ 53) : floorLog2 a b ≤ 52 := by
  obtain ⟨h1, -⟩ := floorLog2_spec a b ha hb
  have hbq : (0 : ℚ) < b := by exact_mod_cast hb
  have hq : (a : ℚ) ≤ N * b := by exact_mod_cast h
  have hNq : (N : ℚ) < 2 ^ ((53 : ℕ) : ℤ) := by
    rw [zpow_natCast]
    exact_mod_cast hN
  have h2 : (2 : ℚ) ^ floorLog2 a b < 2 ^ ((53 : ℕ) : ℤ) := by
    have : (2 : ℚ) ^ floorLog2 a b * b ≤ N * b := le_trans h1 hq
    have := le_of_mul_le_mul_right this hbq
    linarith
  have := (zpow_lt_zpow_iff_right₀ (by norm_num : (1 : ℚ) < 2)).mp h2
  omega

theorem roundQuot_toRat_le (a b N : ℕ) (hb : 0 < b) (h : a ≤ N * b) (hN : N < 2 ^ 53) :
    (roundQuot a b).toRat ≤ N := by
  unfold roundQuot
  split_ifs with ha
  · simp [Double.toRat]
  · have he := floorLog2_le_of_lt a b N (Nat.pos_of_ne_zero ha) hb h hN
    obtain ⟨k, hk⟩ := Int.eq_ofNat_of_zero_le (by omega : 0 ≤ 52 - floorLog2 a b)
    have hs : floorLog2 a b - 52 = -(k : ℤ) := by omega
    simp only [hs, Double.toRat, neg_neg, Int.toNat_ofNat, Int.toNat_neg_nat, pow_zero, mul_one]
    have hm : divRoundEven (a * 2 ^ k) b ≤ N * 2 ^ k :=
      divRoundEven_le _ _ _ hb (by nlinarith [Nat.two_pow_pos k])
    have hmq : (divRoundEven (a * 2 ^ k) b : ℚ) ≤ N * 2 ^ k := by exact_mod_cast hm
    rw [zpow_neg, zpow_natCast, ← div_eq_mul_inv, div_le_iff₀ (by positivity)]
    exact hmq

theorem Double.ofNat_toRat (N : ℕ) (hN : N < 2 ^ 53) : (Double.ofNat N).toRat = N := by
  unfold Double.ofNat roundQuot
  split_ifs with ha
  · simp [Double.toRat, ha]
  · have he := floorLog2_le_of_lt N 1 N (Nat.pos_of_ne_zero ha) one_pos (by simp) hN
    obtain ⟨k, hk⟩ := Int.eq_ofNat_of_zero_le (by omega : 0 ≤ 52 - floorLog2 N 1)
    have hs : floorLog2 N 1 - 52 = -(k : ℤ) := by omega
    simp only [hs, Double.toRat, neg_neg, Int.toNat_ofNat, Int.toNat_neg_nat, pow_zero, mul_one,
      divRoundEven_one]
    push_cast
    rw [zpow_neg, zpow_natCast, mul_assoc, mul_inv_cancel₀ (by positivity), mul_one]

theorem Double.div_toRat_le_one (x y : Double) (hy : 0 < y.man) (h : x.toRat ≤ y.toRat) :
    (Double.div x y).toRat ≤ 1 := by
  have key : x.man * 2 ^ (x.exp - y.exp).toNat ≤ 1 * (y.man * 2 ^ (y.exp - x.exp).toNat) := by
    have hq : (x.man : ℚ) * 2 ^ (x.exp - y.exp).toNat
        ≤ y.man * 2 ^ (y.exp - x.exp).toNat := by
      unfold Double.toRat at h
      have e : (2 : ℚ) ^ x.exp = 2 ^ y.exp * 2 ^ (x.exp - y.exp) := by
        rw [← zpow_add₀ (by norm_num)]; congr 1; ring
      rw [e, zpow_two_split (x.exp - y.exp), neg_sub] at h
      have hp : (0 : ℚ) < 2 ^ (y.exp - x.exp).toNat := by positivity
      have hp2 : (0 : ℚ) < 2 ^ y.exp := by positivity
      have h3 : (x.man : ℚ) * (2 ^ (x.exp - y.exp).toNat / 2 ^ (y.exp - x.exp).toNat)
          ≤ y.man := by
        have : (2 : ℚ) ^ y.exp * ((x.man : ℚ) * (2 ^ (x.exp - y.exp).toNat
            / 2 ^ (y.exp - x.exp).toNat)) ≤ 2 ^ y.exp * y.man := by linarith
        exact le_of_mul_le_mul_left this hp2
      rw [← mul_div_assoc, div_le_iff₀ hp] at h3
      exact h3
    rw [one_mul]
    exact_mod_cast hq
  have := roundQuot_toRat_le _ _ 1 (by positivity) key (by norm_num)
  simpa [Double.div] using this

theorem Double.mul_toRat_le (x y : Double) (N : ℕ) (hN : N < 2 ^ 53)
    (h : x.toRat * y.toRat ≤ N) : (Double.mul x y).toRat ≤ N := by
  have key : x.man * y.man * 2 ^ (x.exp + y.exp).toNat ≤ N * 2 ^ (-(x.exp + y.exp)).toNat := by
    have hq : (x.man : ℚ) * y.man * 2 ^ (x.exp + y.exp).toNat
        ≤ N * 2 ^ (-(x.exp + y.exp)).toNat := by
      unfold Double.toRat at h
      have e : (x.man : ℚ) * 2 ^ x.exp * (y.man * 2 ^ y.exp)
          = x.man * y.man * 2 ^ (x.exp + y.exp) := by
        rw [zpow_add₀ (by norm_num)]; ring
      rw [e, zpow_two_split (x.exp + y.exp), ← mul_div_assoc,
        div_le_iff₀ (by positivity)] at h
      exact h
    exact_mod_cast hq
  exact roundQuot_toRat_le _ _ N (by positivity) key hN

/-- For a vector of at most `2 ^ 53` elements the percentile index stays inside the vector. -/
theorem percentile_index_le (p size : ℕ) (hp : p ≤ 100) (h1 : 1 ≤ size) (h2 : size ≤ 2 ^ 53) :
    percentile_index p size ≤ size - 1 := by
  unfold percentile_index
  apply Double.toSizeT_le
  have hN : size - 1 < 2 ^ 53 := by omega
  apply Double.mul_toRat_le _ _ _ hN
  have hc : (Double.div (Double.ofNat p) (Double.ofNat 100)).toRat ≤ 1 := by
    apply Double.div_toRat_le_one
    · decide
    · rw [Double.ofNat_toRat p (by omega), Double.ofNat_toRat 100 (by norm_num)]
      exact_mod_cast hp
  rw [Double.ofNat_toRat _ hN]
  have h0 : (0 : ℚ) ≤ ((size - 1 : ℕ) : ℚ) := by positivity
  nlinarith

/-! ## Sorting -/

section SortFacts

variable {α : Type} [LinearOrder α]

theorem std_sort_perm (l : List α) : (std_sort l).Perm l :=
  List.perm_insertionSort _ l

theorem std_sort_sorted (l : List α) : (std_sort l).Sorted (· ≤ ·) :=
  List.sorted_insertionSort _ l

/-- Any ascending rearrangement of `l` is `std_sort l`: the result of a correct sort does not
depend on the algorithm. -/
theorem std_sort_unique (l s : List α) (hp : s.Perm l) (hs : s.Sorted (· ≤ ·)) :
    s = std_sort l :=
  List.eq_of_perm_of_sorted (hp.trans (std_sort_perm l).symm) hs (std_sort_sorted l)

theorem std_sort_length (l : List α) : (std_sort l).length = l.length :=
  (std_sort_perm l).length_eq

/-- C1: for every sequence `S`, `sort_data S` is a permutation of `S` (same multiset, same
length) and is non-decreasing: every element is at most its successor, and more generally at
most every later element. -/
theorem sort_data_perm_sorted (S : List α) :
    (sort_data S).Perm S ∧ (∀ x, (sort_data S).count x = S.count x) ∧
      (sort_data S).length = S.length ∧
      (∀ i (h : i + 1 < (sort_data S).length),
        (sort_data S).get ⟨i, Nat.lt_of_succ_lt h⟩ ≤ (sort_data S).get ⟨i + 1, h⟩) ∧
      (sort_data S).Sorted (· ≤ ·) := by
  have hp : (sort_data S).Perm S := std_sort_perm S
  have hs : (sort_data S).Sorted (· ≤ ·) := std_sort_sorted S
  refine ⟨hp, fun x => hp.count_eq x, hp.length_eq, fun i h => ?_, hs⟩
  exact List.Sorted.rel_get_of_lt hs (by simp [Fin.lt_def])

end SortFacts


section PercentileFacts

variable {α : Type} [LinearOrderedField α]

/-- The 21 steps of the loop of `calculate_percentiles`. -/
theorem percentile_loop_unroll (s : List α) :
    percentile_loop s 0 [] =
      (List.range 21).map (fun k => s.getD (percentile_index (5 * k) s.length) 0) := by
  have hr : List.range 21 = [0, 1, 2, 3, 4, 5, 6, 7, 8, 9, 10, 11, 12, 13, 14, 15, 16, 17, 18,
      19, 20] := by decide
  rw [hr]
  iterate 22 rw [percentile_loop]
  simp

/-- What `calculate_percentiles` returns on a non-empty vector: the 21 reads of the sorted copy
at the machine-computed indices. -/
theorem calculate_percentiles_eq (data : List α) (h : data ≠ []) :
    calculate_percentiles data =
      (List.range 21).map
        (fun k => (sort_data data).getD (percentile_index (5 * k) data.length) 0) := by
  unfold calculate_percentiles
  have he : data.isEmpty = false := by
    cases data with
    | nil => exact absurd rfl h
    | cons x xs => rfl
  simp only [he, Bool.false_eq_true, if_false]
  rw [percentile_loop_unroll, std_sort_length]
  rfl

theorem calculate_percentiles_length (data : List α) (h : data ≠ []) :
    (calculate_percentiles data).length = 21 := by
  rw [calculate_percentiles_eq data h]
  simp

theorem calculate_percentiles_eq_nil_iff (data : List α) :
    calculate_percentiles data = [] ↔ data = [] := by
  constructor
  · intro h
    by_contra hne
    have := calculate_percentiles_length data hne
    rw [h] at this
    simp at this
  · rintro rfl
    rfl

theorem calculate_percentiles_getD (data : List α) (h : data ≠ []) (k : ℕ) (hk : k ≤ 20) :
    (calculate_percentiles data).getD k 0 =
      (sort_data data).getD (percentile_index (5 * k) data.length) 0 := by
  rw [calculate_percentiles_eq data h]
  have hk2 : k < (List.range 21).length := by simp; omega
  rw [List.getD_eq_getElem?_getD, List.getElem?_map, List.getElem?_range (by omega)]
  rfl

end PercentileFacts


/-! ## Percentiles: evaluation -/

/-- An ascending vector is left unchanged by `sort_data`. -/
theorem sort_data_of_sorted {α : Type} [LinearOrder α] (l : List α) (h : l.Sorted (· ≤ ·)) :
    sort_data l = l :=
  (std_sort_unique l l (List.Perm.refl l) h).symm

theorem ramp_sorted (n : ℕ) : ((List.range n).map (fun i : ℕ => (i : ℚ))).Sorted (· ≤ ·) :=
  List.Pairwise.map _ (fun _ _ hab => by exact_mod_cast hab) (List.pairwise_le_range n)

/-- C2 (evaluation at the failing input): on the 91 values `0, 1, ..., 90` the entry for the
70th percentile (position 14) is the element at index 62, namely 62, whereas the index given by
the formula `floor((5k/100) * (n-1))` is 63, where the sorted data holds 63. -/
theorem calculate_percentiles_index_divergence :
    (calculate_percentiles ((List.range 91).map (fun i : ℕ => (i : ℚ)))).getD 14 0 = 62 ∧
      ⌊((5 * 14 : ℚ) / 100) * ((91 : ℚ) - 1)⌋₊ = 63 ∧
      (sort_data ((List.range 91).map (fun i : ℕ => (i : ℚ)))).getD
        ⌊((5 * 14 : ℚ) / 100) * ((91 : ℚ) - 1)⌋₊ 0 = 63 := by
  have hne : (List.range 91).map (fun i : ℕ => (i : ℚ)) ≠ [] := by
    intro h
    have := congrArg List.length h
    simp at this
  have hi : percentile_index (5 * 14) 91 = 62 := by decide
  have hf : ⌊((5 * 14 : ℚ) / 100) * ((91 : ℚ) - 1)⌋₊ = 63 := by
    have : ((5 * 14 : ℚ) / 100) * ((91 : ℚ) - 1) = ((63 : ℕ) : ℚ) := by norm_num
    rw [this, Nat.floor_natCast]
  refine ⟨?_, hf, ?_⟩
  · rw [calculate_percentiles_getD _ hne 14 (by norm_num), sort_data_of_sorted _ (ramp_sorted 91)]
    simp only [List.length_map, List.length_range, hi]
    simp [List.getD_eq_getElem?_getD]
  · rw [hf, sort_data_of_sorted _ (ramp_sorted 91)]
    simp [List.getD_eq_getElem?_getD]


section StatsFacts

variable {α : Type} [LinearOrderedField α]

omit [LinearOrderedField α] in
theorem isEmpty_eq_false_of_ne_nil (data : List α) (h : data ≠ []) : data.isEmpty = false := by
  cases data with
  | nil => exact absurd rfl h
  | cons x xs => rfl

/-- The three components computed by `calculateStats` on a non-empty vector. -/
theorem calculateStats_eq (sqrt : α → α) (data : List α) (hne : data ≠ []) :
    calculateStats sqrt data =
      [data.foldl (fun acc x => acc + x) 0 / (data.length : α),
        if data.length % 2 = 0 then
          ((std_sort data).getD (data.length / 2 - 1) 0
            + (std_sort data).getD (data.length / 2) 0) / 2
        else (std_sort data).getD (data.length / 2) 0,
        sqrt ((data.zip data).foldl (fun acc xy => acc + xy.1 * xy.2) 0 / (data.length : α)
          - data.foldl (fun acc x => acc + x) 0 / (data.length : α)
            * (data.foldl (fun acc x => acc + x) 0 / (data.length : α)))] := by
  unfold calculateStats
  simp only [isEmpty_eq_false_of_ne_nil data hne, Bool.false_eq_true, if_false, std_sort_length]

/-- C8: empty inputs give defined results: `calculateStats [] = [0, 0, 0]`,
`calculate_percentiles [] = []` and `calculate_rolling_mean [] w = []` for every window `w`;
the results of `calculateStats` and `calculate_percentiles` on the empty input differ. -/
theorem empty_input_results (sqrt : α → α) :
    calculateStats sqrt ([] : List α) = [0, 0, 0] ∧
      calculate_percentiles ([] : List α) = [] ∧
      (∀ w : ℕ, calculate_rolling_mean ([] : List α) w = []) ∧
      calculateStats sqrt ([] : List α) ≠ calculate_percentiles ([] : List α) := by
  refine ⟨rfl, rfl, fun _ => rfl, ?_⟩
  intro h
  have := congrArg List.length h
  simp [calculateStats, calculate_percentiles] at this

/-- C7: for a non-empty `data` of length `n` and its ascending sort `s` (the ascending
permutation of `data`, which is what `sort_data` returns), the second component of
`calculateStats data` is `s[n/2]` when `n` is odd and `(s[n/2 - 1] + s[n/2]) / 2` when `n` is
even; `s` has length `n` and the indices read lie inside it. -/
theorem calculateStats_median (sqrt : α → α) (data s : List α) (hne : data ≠ [])
    (hperm : s.Perm data) (hsorted : s.Sorted (· ≤ ·)) :
    s = sort_data data ∧ s.length = data.length ∧
      (data.length % 2 = 0 → 1 ≤ data.length / 2 ∧ data.length / 2 - 1 < s.length) ∧
      data.length / 2 < s.length ∧
      ∃ mean stdev, calculateStats sqrt data =
        [mean,
          if data.length % 2 = 1 then s.getD (data.length / 2) 0
          else (s.getD (data.length / 2 - 1) 0 + s.getD (data.length / 2) 0) / 2,
          stdev] := by
  have hs : s = std_sort data := std_sort_unique data s hperm hsorted
  have hlen : s.length = data.length := hperm.length_eq
  have hpos : 0 < data.length := List.length_pos.mpr hne
  refine ⟨hs, hlen, fun h => by omega, by omega, ?_⟩
  rw [calculateStats_eq sqrt data hne, ← hs]
  rcases Nat.mod_two_eq_zero_or_one data.length with h | h
  · simp only [h, if_true, zero_ne_one, if_false]
    exact ⟨_, _, rfl⟩
  · simp only [h, one_ne_zero, if_false, if_true]
    exact ⟨_, _, rfl⟩

theorem calculateStats_median_witness :
    ([3, 1, 2, 4] : List ℚ) ≠ [] ∧ ([1, 2, 3, 4] : List ℚ).Perm [3, 1, 2, 4] ∧
      ([1, 2, 3, 4] : List ℚ).Sorted (· ≤ ·) ∧
      ∃ mean stdev, calculateStats (fun x => x) ([3, 1, 2, 4] : List ℚ) =
        [mean,
          if ([3, 1, 2, 4] : List ℚ).length % 2 = 1 then
            ([1, 2, 3, 4] : List ℚ).getD (([3, 1, 2, 4] : List ℚ).length / 2) 0
          else (([1, 2, 3, 4] : List ℚ).getD (([3, 1, 2, 4] : List ℚ).length / 2 - 1) 0
            + ([1, 2, 3, 4] : List ℚ).getD (([3, 1, 2, 4] : List ℚ).length / 2) 0) / 2,
          stdev] :=
  ⟨by simp, by decide, by norm_num [List.Sorted],
    (calculateStats_median (fun x => x) [3, 1, 2, 4] [1, 2, 3, 4] (by simp) (by decide)
      (by norm_num [List.Sorted])).2.2.2.2⟩

end StatsFacts

/-! ## Index safety -/

/-- Why the statements about the last percentile carry the bound `2 ^ 53` on the length: beyond
it `size - 1` need not be a binary64 value, and the index computed for `p = 100` is `size - 2`
at `size = 2 ^ 53 + 2` and `size` at `size = 2 ^ 53 + 4`. -/
theorem percentile_index_beyond_limit :
    percentile_index 100 (2 ^ 53 + 2) = 2 ^ 53 ∧ percentile_index 100 (2 ^ 53 + 4) = 2 ^ 53 + 4 := by
  decide

section FoldFacts

variable {α : Type} [LinearOrderedField α]

theorem foldl_add_range (g : ℕ → α) (init : α) (n : ℕ) :
    (List.range n).foldl (fun s i => s + g i) init = init + ∑ i in Finset.range n, g i := by
  induction n with
  | zero => simp
  | succ n ih =>
    rw [List.range_succ, List.foldl_append, ih, Finset.sum_range_succ]
    simp [add_assoc]

theorem foldl_add_range' (g : ℕ → α) (init : α) (s n : ℕ) :
    (List.range' s n).foldl (fun acc i => acc + g i) init
      = init + ∑ i in Finset.range n, g (s + i) := by
  rw [List.range'_eq_map_range, List.foldl_map]
  exact foldl_add_range (fun i => g (s + i)) init n

theorem foldl_add_replicate (init c : α) (k : ℕ) :
    (List.replicate k c).foldl (fun acc x => acc + x) init = init + k * c := by
  induction k generalizing init with
  | zero => simp
  | succ k ih =>
    rw [List.replicate_succ, List.foldl_cons, ih]
    push_cast
    ring

theorem foldl_sq_replicate (init c : α) (k : ℕ) :
    (List.replicate k (c, c)).foldl (fun acc xy => acc + xy.1 * xy.2) init
      = init + k * (c * c) := by
  induction k generalizing init with
  | zero => simp
  | succ k ih =>
    rw [List.replicate_succ, List.foldl_cons, ih]
    push_cast
    ring

/-- C9: for every `c` and every `k ≥ 1`, `calculateStats` on `k` copies of `c` returns
mean `c`, median `c` and standard deviation `0` (exact arithmetic, for a square root with
`sqrt 0 = 0`). -/
theorem calculateStats_constant (sqrt : α → α) (hsqrt : sqrt 0 = 0) (c : α) (k : ℕ)
    (hk : 1 ≤ k) : calculateStats sqrt (List.replicate k c) = [c, c, 0] := by
  have hne : List.replicate k c ≠ [] := by
    intro h
    have := congrArg List.length h
    simp at this
    omega
  have hk0 : (k : α) ≠ 0 := by
    have : 0 < k := hk
    exact_mod_cast this.ne'
  have hsort : std_sort (List.replicate k c) = List.replicate k c :=
    sort_data_of_sorted _ (List.pairwise_replicate.mpr (Or.inr le_rfl))
  have hget : ∀ i, i < k → (List.replicate k c).getD i 0 = c := by
    intro i hi
    simp [List.getD_eq_getElem?_getD, List.getElem?_replicate, hi]
  rw [calculateStats_eq sqrt _ hne, hsort, List.zip_replicate', foldl_add_replicate,
    foldl_sq_replicate, List.length_replicate, hget (k / 2) (by omega)]
  have h1 : (0 + (k : α) * c) / k = c := by
    field_simp
  have h2 : (0 + (k : α) * (c * c)) / k - c * c = 0 := by
    field_simp
  rw [h1, h2, hsqrt]
  split_ifs with h
  · rw [hget (k / 2 - 1) (by omega)]
    have : (c + c) / 2 = c := by ring
    rw [this]
  · rfl

theorem calculateStats_constant_witness :
    Real.sqrt 0 = 0 ∧ 1 ≤ 3 ∧
      calculateStats Real.sqrt (List.replicate 3 (2 : ℝ)) = [2, 2, 0] :=
  ⟨Real.sqrt_zero, by decide,
    calculateStats_constant Real.sqrt Real.sqrt_zero 2 3 (by decide)⟩

end FoldFacts


section RollingFacts

variable {α : Type} [LinearOrderedField α]

/-- The window start of the code is `max(0, i - window)` computed in the integers. -/
theorem window_start_eq_max (i window : ℕ) :
    window_start i window = Int.toNat (max 0 ((i : ℤ) - (window : ℤ))) := by
  unfold window_start
  split_ifs with h <;> omega

theorem window_start_le (i window : ℕ) : window_start i window ≤ i := by
  unfold window_start
  split_ifs <;> omega

/-- The rolling mean as a list of window averages. -/
theorem calculate_rolling_mean_eq (data : List α) (window : ℕ) :
    calculate_rolling_mean data window =
      (List.range data.length).map (fun i =>
        (∑ j in Finset.Icc (window_start i window) i, data.getD j 0)
          / ((i - window_start i window + 1 : ℕ) : α)) := by
  unfold calculate_rolling_mean
  cases data with
  | nil => rfl
  | cons x xs =>
    simp only [List.isEmpty_cons, Bool.false_eq_true, if_false]
    apply List.map_congr_left
    intro i _
    have hs := window_start_le i window
    rw [foldl_add_range' (fun j => (x :: xs).getD j 0), zero_add,
      ← Nat.Ico_succ_right, Finset.sum_Ico_eq_sum_range]

/-- C3: for every `data` and every window, `calculate_rolling_mean data window` has the length
of `data`, and for every valid index `i` its `i`-th element is the sum of `data[j]` for `j` from
`start` to `i` inclusive divided by `i - start + 1`, where `start = max(0, i - window)`;
`calculate_rolling_mean [1,2,3,4,5] 2 = [1, 1.5, 2, 3, 4]`. -/
theorem calculate_rolling_mean_spec (data : List α) (window : ℕ) :
    (calculate_rolling_mean data window).length = data.length ∧
      (∀ i, i < data.length →
        (calculate_rolling_mean data window).getD i 0 =
          (∑ j in Finset.Icc (Int.toNat (max 0 ((i : ℤ) - (window : ℤ)))) i, data.getD j 0)
            / ((i - Int.toNat (max 0 ((i : ℤ) - (window : ℤ))) + 1 : ℕ) : α)) ∧
      calculate_rolling_mean ([1, 2, 3, 4, 5] : List ℚ) 2 = [1, 3 / 2, 2, 3, 4] := by
  refine ⟨?_, fun i hi => ?_, ?_⟩
  · rw [calculate_rolling_mean_eq]
    simp
  · rw [calculate_rolling_mean_eq, List.getD_eq_getElem?_getD, List.getElem?_map,
      List.getElem?_range hi, ← window_start_eq_max]
    rfl
  · rw [calculate_rolling_mean_eq]
    simp [List.range_succ, window_start, Finset.sum_Icc_succ_top]
    norm_num

theorem calculate_rolling_mean_spec_witness :
    3 < ([1, 2, 3, 4, 5] : List ℚ).length ∧
      (calculate_rolling_mean ([1, 2, 3, 4, 5] : List ℚ) 2).getD 3 0 =
        (∑ j in Finset.Icc (Int.toNat (max 0 (((3 : ℕ) : ℤ) - ((2 : ℕ) : ℤ)))) 3,
            ([1, 2, 3, 4, 5] : List ℚ).getD j 0)
          / ((3 - Int.toNat (max 0 (((3 : ℕ) : ℤ) - ((2 : ℕ) : ℤ))) + 1 : ℕ) : ℚ) :=
  ⟨by decide, (calculate_rolling_mean_spec ([1, 2, 3, 4, 5] : List ℚ) 2).2.1 3 (by decide)⟩

end RollingFacts

section QuadratureFacts

variable {α : Type} [LinearOrderedField α]

/-- On an odd count whose successor is an `int`, `integrate_simpson` does what it does on the
next, even, count. -/
theorem integrate_simpson_succ_of_odd (f : α → α) (a b : α) (n : ℤ) (hodd : n % 2 = 1)
    (hlo : -2147483648 ≤ n + 1) (hhi : n + 1 ≤ INT_MAX) :
    integrate_simpson f a b n = integrate_simpson f a b (n + 1) := by
  have h1 : n % 2 ≠ 0 := by omega
  have h2 : ¬ (n + 1) % 2 ≠ 0 := by omega
  unfold integrate_simpson
  simp only [h1, h2, ne_eq, not_false_eq_true, if_true, if_false, wrapInt_of_int _ hlo hhi]

/-- C4: for every `f`, all bounds and every odd positive `n` (with `n + 1` an `int`, as the
call on `n + 1` requires), `integrate_simpson f a b n = integrate_simpson f a b (n + 1)`: an odd
subdivision count is replaced by `n + 1`. -/
theorem integrate_simpson_odd (f : α → α) (a b : α) (n : ℤ) (hpos : 0 < n)
    (hodd : n % 2 = 1) (hint : n + 1 ≤ INT_MAX) :
    integrate_simpson f a b n = integrate_simpson f a b (n + 1) :=
  integrate_simpson_succ_of_odd f a b n hodd (by omega) hint

theorem integrate_simpson_odd_witness :
    (0 : ℤ) < 3 ∧ (3 : ℤ) % 2 = 1 ∧ (3 : ℤ) + 1 ≤ INT_MAX ∧
      integrate_simpson (fun x : ℚ => x * x) 0 1 3
        = integrate_simpson (fun x : ℚ => x * x) 0 1 (3 + 1) :=
  ⟨by decide, by decide, by decide,
    integrate_simpson_odd (fun x : ℚ => x * x) 0 1 3 (by decide) (by decide) (by decide)⟩

theorem sum_range_reflect_congr (g h : ℕ → α) (n : ℕ) (hgh : ∀ i, i < n → h i = g (n - 1 - i)) :
    ∑ i in Finset.range n, h i = ∑ i in Finset.range n, g i := by
  rw [← Finset.sum_range_reflect g n]
  exact Finset.sum_congr rfl (fun i hi => hgh i (Finset.mem_range.mp hi))

/-- The midpoint rule as a finite sum. -/
theorem integrate_rectangle_eq_sum (f : α → α) (a b : α) (m : ℕ) :
    integrate_rectangle f a b (m : ℤ) =
      (∑ i in Finset.range m, f (a + ((i : α) + 1 / 2) * ((b - a) / (m : α))))
        * ((b - a) / (m : α)) := by
  unfold integrate_rectangle
  simp only [Int.toNat_ofNat, Int.cast_natCast]
  rw [foldl_add_range (fun i => f (a + ((i : α) + 1 / 2) * ((b - a) / (m : α)))), zero_add]

/-- The trapezoid rule as a finite sum. -/
theorem integrate_trapezoid_eq_sum (f : α → α) (a b : α) (m : ℕ) :
    integrate_trapezoid f a b (m : ℤ) =
      (1 / 2 * (f a + f b)
          + ∑ i in Finset.range (m - 1), f (a + ((1 + i : ℕ) : α) * ((b - a) / (m : α))))
        * ((b - a) / (m : α)) := by
  unfold integrate_trapezoid
  simp only [Int.toNat_ofNat, Int.cast_natCast]
  rw [foldl_add_range' (fun i => f (a + (i : α) * ((b - a) / (m : α))))]

/-- Simpson's rule on an even number `m` of subintervals as a finite sum. -/
theorem integrate_simpson_eq_sum (f : α → α) (a b : α) (m : ℕ) (hm : m % 2 = 0) :
    integrate_simpson f a b (m : ℤ) =
      (f a + f b
          + ∑ i in Finset.range (m - 1),
              f (a + ((1 + i : ℕ) : α) * ((b - a) / (m : α)))
                * (if (1 + i) % 2 = 0 then 2 else 4))
        * ((b - a) / (m : α)) / 3 := by
  have h : ¬ ((m : ℤ) % 2 ≠ 0) := by omega
  unfold integrate_simpson
  simp only [h, if_false, Int.toNat_ofNat, Int.cast_natCast]
  rw [foldl_add_range' (fun i => f (a + (i : α) * ((b - a) / (m : α)))
    * (if i % 2 = 0 then 2 else 4))]

/-- The subdivision count `integrate_simpson` works with: `n` rounded up to an even number by
an `int` increment. -/
theorem integrate_simpson_even_count (f : α → α) (a b : α) (n : ℤ) :
    integrate_simpson f a b n
      = integrate_simpson f a b (if n % 2 ≠ 0 then wrapInt (n + 1) else n) := by
  by_cases h : n % 2 ≠ 0
  · have h2 : ¬ wrapInt (n + 1) % 2 ≠ 0 := by
      rw [wrapInt_emod_two]
      omega
    rw [if_pos h]
    unfold integrate_simpson
    simp only [if_pos h, if_neg h2]
  · rw [if_neg h]

/-- On an even count that is not positive the loop of `integrate_simpson` is empty. -/
theorem integrate_simpson_of_nonpos (f : α → α) (a b : α) (n : ℤ) (heven : n % 2 = 0)
    (hn : n ≤ 0) : integrate_simpson f a b n = (f a + f b) * ((b - a) / (n : α)) / 3 := by
  have h : ¬ n % 2 ≠ 0 := by omega
  have ht : n.toNat = 0 := Int.toNat_eq_zero.mpr hn
  unfold integrate_simpson
  simp only [h, if_false, ht]
  rfl

theorem integrate_rectangle_swap (f : α → α) (a b : α) (m : ℕ) (hm : 0 < m) :
    integrate_rectangle f b a (m : ℤ) = -integrate_rectangle f a b (m : ℤ) := by
  have hm0 : (m : α) ≠ 0 := by exact_mod_cast hm.ne'
  rw [integrate_rectangle_eq_sum, integrate_rectangle_eq_sum]
  rw [sum_range_reflect_congr (fun i => f (a + ((i : α) + 1 / 2) * ((b - a) / (m : α))))
    (fun i => f (b + ((i : α) + 1 / 2) * ((a - b) / (m : α)))) m]
  · ring
  · intro i hi
    have hc : ((m - 1 - i : ℕ) : α) = (m : α) - 1 - i := by
      rw [Nat.cast_sub (by omega), Nat.cast_sub (by omega)]
      simp
    simp only [hc]
    congr 1
    field_simp
    ring

theorem integrate_trapezoid_swap (f : α → α) (a b : α) (m : ℕ) (hm : 0 < m) :
    integrate_trapezoid f b a (m : ℤ) = -integrate_trapezoid f a b (m : ℤ) := by
  have hm0 : (m : α) ≠ 0 := by exact_mod_cast hm.ne'
  rw [integrate_trapezoid_eq_sum, integrate_trapezoid_eq_sum]
  rw [sum_range_reflect_congr (fun i => f (a + ((1 + i : ℕ) : α) * ((b - a) / (m : α))))
    (fun i => f (b + ((1 + i : ℕ) : α) * ((a - b) / (m : α)))) (m - 1)]
  · ring
  · intro i hi
    have hc : ((1 + (m - 1 - 1 - i) : ℕ) : α) = (m : α) - (1 + i) := by
      have : 1 + (m - 1 - 1 - i) = m - (1 + i) := by omega
      rw [this, Nat.cast_sub (by omega)]
      simp
    simp only [hc]
    congr 1
    push_cast
    field_simp
    ring

theorem integrate_simpson_swap_even (f : α → α) (a b : α) (m : ℕ) (hm : 0 < m)
    (heven : m % 2 = 0) :
    integrate_simpson f b a (m : ℤ) = -integrate_simpson f a b (m : ℤ) := by
  have hm0 : (m : α) ≠ 0 := by exact_mod_cast hm.ne'
  rw [integrate_simpson_eq_sum f b a m heven, integrate_simpson_eq_sum f a b m heven]
  rw [sum_range_reflect_congr
    (fun i => f (a + ((1 + i : ℕ) : α) * ((b - a) / (m : α)))
      * (if (1 + i) % 2 = 0 then 2 else 4))
    (fun i => f (b + ((1 + i : ℕ) : α) * ((a - b) / (m : α)))
      * (if (1 + i) % 2 = 0 then 2 else 4)) (m - 1)]
  · ring
  · intro i hi
    have hc : ((1 + (m - 1 - 1 - i) : ℕ) : α) = (m : α) - (1 + i) := by
      have : 1 + (m - 1 - 1 - i) = m - (1 + i) := by omega
      rw [this, Nat.cast_sub (by omega)]
      simp
    have hpar : (1 + (m - 1 - 1 - i)) % 2 = (1 + i) % 2 := by omega
    simp only [hc, hpar]
    congr 2
    push_cast
    field_simp
    ring

/-- Swapping the bounds negates Simpson's rule on every even count, positive or not. -/
theorem integrate_simpson_swap_of_even (f : α → α) (a b : α) (n : ℤ) (heven : n % 2 = 0) :
    integrate_simpson f b a n = -integrate_simpson f a b n := by
  rcases le_or_lt n 0 with hn | hn
  · rw [integrate_simpson_of_nonpos f b a n heven hn,
      integrate_simpson_of_nonpos f a b n heven hn]
    ring
  · obtain ⟨m, rfl⟩ := Int.eq_ofNat_of_zero_le hn.le
    exact integrate_simpson_swap_even f a b m (by omega) (by omega)

/-- C5: for each of `integrate_rectangle`, `integrate_trapezoid` and `integrate_simpson`, for
every `f`, all bounds `a`, `b` and every positive `n`, swapping the bounds negates the result
(exact arithmetic).  For `integrate_simpson` this includes `n = INT_MAX`, where the increment
wraps to `-2 ^ 31` and the loop is empty. -/
theorem integrate_swap_bounds (f : α → α) (a b : α) (n : ℤ) (hn : 0 < n) :
    integrate_rectangle f b a n = -integrate_rectangle f a b n ∧
      integrate_trapezoid f b a n = -integrate_trapezoid f a b n ∧
      integrate_simpson f b a n = -integrate_simpson f a b n := by
  have hs : integrate_simpson f b a n = -integrate_simpson f a b n := by
    rw [integrate_simpson_even_count f b a, integrate_simpson_even_count f a b]
    apply integrate_simpson_swap_of_even
    by_cases h : n % 2 ≠ 0
    · rw [if_pos h, wrapInt_emod_two]
      omega
    · rw [if_neg h]
      omega
  obtain ⟨m, rfl⟩ := Int.eq_ofNat_of_zero_le hn.le
  have hm : 0 < m := by exact_mod_cast hn
  exact ⟨integrate_rectangle_swap f a b m hm, integrate_trapezoid_swap f a b m hm, hs⟩

theorem integrate_swap_bounds_witness :
    (0 : ℤ) < 2147483647 ∧
      (integrate_rectangle (fun x : ℚ => x * x) 2 1 2147483647
          = -integrate_rectangle (fun x : ℚ => x * x) 1 2 2147483647 ∧
        integrate_trapezoid (fun x : ℚ => x * x) 2 1 2147483647
          = -integrate_trapezoid (fun x : ℚ => x * x) 1 2 2147483647 ∧
        integrate_simpson (fun x : ℚ => x * x) 2 1 2147483647
          = -integrate_simpson (fun x : ℚ => x * x) 1 2 2147483647) :=
  ⟨by norm_num, integrate_swap_bounds (fun x : ℚ => x * x) 1 2 2147483647 (by norm_num)⟩

/-! ### Calls of the integrand -/

/-- A loop that accumulates a value and records one call per iteration. -/
theorem foldl_calls (g x : ℕ → α) (l : List ℕ) (s0 : α) (l0 : List α) :
    l.foldl (fun (st : α × List α) (i : ℕ) => (st.1 + g i, st.2 ++ [x i])) (s0, l0)
      = (l.foldl (fun (s : α) (i : ℕ) => s + g i) s0, l0 ++ l.map x) := by
  induction l generalizing s0 l0 with
  | nil => simp
  | cons i l ih => simp [ih]

theorem integrate_rectangle_calls_eq (f : α → α) (a b : α) (n : ℤ) :
    integrate_rectangle_calls f a b n =
      (integrate_rectangle f a b n,
        (List.range n.toNat).map (fun (i : ℕ) => a + ((i : α) + 1 / 2) * ((b - a) / (n : α)))) := by
  unfold integrate_rectangle_calls integrate_rectangle
  simp only
  rw [foldl_calls (fun i => f (a + ((i : α) + 1 / 2) * ((b - a) / (n : α))))
    (fun i => a + ((i : α) + 1 / 2) * ((b - a) / (n : α)))]
  simp

theorem integrate_trapezoid_calls_eq (f : α → α) (a b : α) (n : ℤ) :
    integrate_trapezoid_calls f a b n =
      (integrate_trapezoid f a b n,
        [a, b] ++ (List.range' 1 (n.toNat - 1)).map
          (fun (i : ℕ) => a + (i : α) * ((b - a) / (n : α)))) := by
  unfold integrate_trapezoid_calls integrate_trapezoid
  simp only
  rw [foldl_calls (fun i => f (a + (i : α) * ((b - a) / (n : α))))
    (fun i => a + (i : α) * ((b - a) / (n : α)))]

theorem integrate_simpson_calls_eq (f : α → α) (a b : α) (n : ℤ) :
    integrate_simpson_calls f a b n =
      (integrate_simpson f a b n,
        [a, b] ++ (List.range' 1 ((if n % 2 ≠ 0 then wrapInt (n + 1) else n).toNat - 1)).map
          (fun (i : ℕ) =>
            a + (i : α) * ((b - a) / ((if n % 2 ≠ 0 then wrapInt (n + 1) else n : ℤ) : α)))) := by
  unfold integrate_simpson_calls integrate_simpson
  simp only
  rw [foldl_calls
    (fun i => f (a + (i : α) * ((b - a) / ((if n % 2 ≠ 0 then wrapInt (n + 1) else n : ℤ) : α)))
      * (if i % 2 = 0 then 2 else 4))
    (fun i => a + (i : α) * ((b - a) / ((if n % 2 ≠ 0 then wrapInt (n + 1) else n : ℤ) : α)))]

/-- Number of calls of `f` made by `integrate_simpson` for a positive `n` below `INT_MAX`. -/
theorem integrate_simpson_calls_length (f : α → α) (a b : α) (n : ℤ) (hn : 0 < n)
    (hmax : n < INT_MAX) :
    ((integrate_simpson_calls f a b n).2.length : ℤ) = if n % 2 = 0 then n + 1 else n + 2 := by
  have hw : wrapInt (n + 1) = n + 1 := wrapInt_of_int _ (by omega) (by omega)
  rw [integrate_simpson_calls_eq, hw]
  simp only [List.length_append, List.length_cons, List.length_nil, List.length_map,
    List.length_range']
  split_ifs <;> omega

/-- At `n = INT_MAX` the increment wraps to `-2 ^ 31`, the loop is empty and `f` is called twice,
at the two bounds. -/
theorem integrate_simpson_calls_int_max (f : α → α) (a b : α) :
    (integrate_simpson_calls f a b INT_MAX).2 = [a, b] := by
  have h : INT_MAX % 2 ≠ 0 := by unfold INT_MAX; omega
  rw [integrate_simpson_calls_eq, if_pos h, wrapInt_succ_int_max]
  rfl

/-- C6 (counterexample): for `n = 1`, `integrate_simpson` calls `f` three times, not
`n + 1 = 2` times. -/
theorem integrate_simpson_calls_one :
    (integrate_simpson_calls (fun x : ℚ => x) 0 1 1).2.length = 3 ∧
      (integrate_simpson_calls (fun x : ℚ => x) 0 1 1).2.length ≠ 1 + 1 := by
  have h := integrate_simpson_calls_length (fun x : ℚ => x) 0 1 1 (by decide)
    (by unfold INT_MAX; norm_num)
  have h3 : (integrate_simpson_calls (fun x : ℚ => x) 0 1 1).2.length = 3 := by
    have : ((integrate_simpson_calls (fun x : ℚ => x) 0 1 1).2.length : ℤ) = 3 := by
      rw [h]; decide
    exact_mod_cast this
  exact ⟨h3, by rw [h3]; decide⟩

/-- C6 (amended): for every `f`, all bounds and every positive `n`, `integrate_rectangle` calls
`f` exactly `n` times, at the `n` subinterval midpoints; `integrate_trapezoid` calls `f` exactly
`n + 1` times; `integrate_simpson` calls `f` exactly `n + 1` times when `n` is even and, for `n`
below `INT_MAX`, `n + 2` times when `n` is odd.  The recorded runs return the results of the
plain functions. -/
theorem quadrature_call_counts (f : α → α) (a b : α) (n : ℤ) (hn : 0 < n) :
    (integrate_rectangle_calls f a b n).1 = integrate_rectangle f a b n ∧
      (integrate_rectangle_calls f a b n).2 =
        (List.range n.toNat).map (fun (i : ℕ) => a + ((i : α) + 1 / 2) * ((b - a) / (n : α))) ∧
      ((integrate_rectangle_calls f a b n).2.length : ℤ) = n ∧
      (integrate_trapezoid_calls f a b n).1 = integrate_trapezoid f a b n ∧
      ((integrate_trapezoid_calls f a b n).2.length : ℤ) = n + 1 ∧
      (integrate_simpson_calls f a b n).1 = integrate_simpson f a b n ∧
      (n < INT_MAX →
        ((integrate_simpson_calls f a b n).2.length : ℤ)
          = if n % 2 = 0 then n + 1 else n + 2) := by
  refine ⟨?_, ?_, ?_, ?_, ?_, ?_, integrate_simpson_calls_length f a b n hn⟩
  · rw [integrate_rectangle_calls_eq]
  · rw [integrate_rectangle_calls_eq]
  · rw [integrate_rectangle_calls_eq]
    simp only [List.length_map, List.length_range]
    omega
  · rw [integrate_trapezoid_calls_eq]
  · rw [integrate_trapezoid_calls_eq]
    simp only [List.length_append, List.length_cons, List.length_nil, List.length_map,
      List.length_range']
    omega
  · rw [integrate_simpson_calls_eq]

theorem quadrature_call_counts_witness :
    (0 : ℤ) < 4 ∧
    ((integrate_rectangle_calls (fun x : ℚ => x) 0 1 4).1
        = integrate_rectangle (fun x : ℚ => x) 0 1 4 ∧
      (integrate_rectangle_calls (fun x : ℚ => x) 0 1 4).2 =
        (List.range (4 : ℤ).toNat).map
          (fun (i : ℕ) => (0 : ℚ) + ((i : ℚ) + 1 / 2) * ((1 - 0) / ((4 : ℤ) : ℚ))) ∧
      ((integrate_rectangle_calls (fun x : ℚ => x) 0 1 4).2.length : ℤ) = 4 ∧
      (integrate_trapezoid_calls (fun x : ℚ => x) 0 1 4).1
        = integrate_trapezoid (fun x : ℚ => x) 0 1 4 ∧
      ((integrate_trapezoid_calls (fun x : ℚ => x) 0 1 4).2.length : ℤ) = 4 + 1 ∧
      (integrate_simpson_calls (fun x : ℚ => x) 0 1 4).1
        = integrate_simpson (fun x : ℚ => x) 0 1 4 ∧
      ((4 : ℤ) < INT_MAX →
        ((integrate_simpson_calls (fun x : ℚ => x) 0 1 4).2.length : ℤ)
          = if (4 : ℤ) % 2 = 0 then 4 + 1 else 4 + 2)) :=
  ⟨by decide, quadrature_call_counts (fun x : ℚ => x) 0 1 4 (by decide)⟩

end QuadratureFacts

section QuadratureExact

variable {α : Type} [LinearOrderedField α]

/-- Simpson's weighted sum over the interior nodes `1, ..., 2j+1`, split into the odd nodes
(weight 4) and the even nodes (weight 2). -/
theorem simpson_sum_split (F : ℕ → α) (j : ℕ) :
    ∑ i in Finset.range (2 * j + 1), F (1 + i) * (if (1 + i) % 2 = 0 then 2 else 4)
      = 4 * ∑ i in Finset.range (j + 1), F (2 * i + 1)
        + 2 * ∑ i in Finset.range j, F (2 * (1 + i)) := by
  induction j with
  | zero => simp [mul_comm]
  | succ j ih =>
    have e : 2 * (j + 1) + 1 = (2 * j + 1) + 1 + 1 := by ring
    rw [e, Finset.sum_range_succ, Finset.sum_range_succ, ih,
      Finset.sum_range_succ (fun i => F (2 * i + 1)) (j + 1),
      Finset.sum_range_succ (fun i => F (2 * (1 + i))) j]
    have h1 : (1 + (2 * j + 1)) % 2 = 0 := by omega
    have h2 : ¬ (1 + (2 * j + 1 + 1)) % 2 = 0 := by omega
    have e1 : 1 + (2 * j + 1) = 2 * (1 + j) := by ring
    have e2 : 1 + (2 * j + 1 + 1) = 2 * (j + 1) + 1 := by ring
    rw [if_pos h1, if_neg h2, e1, e2]
    ring

/-- Sum of the midpoint values of an affine function. -/
theorem sum_affine_midpoints (p q a h : α) (m : ℕ) :
    ∑ i in Finset.range m, (p * (a + ((i : α) + 1 / 2) * h) + q)
      = m * (p * a + q) + p * h * (m : α) ^ 2 / 2 := by
  induction m with
  | zero => simp
  | succ m ih =>
    rw [Finset.sum_range_succ, ih]
    push_cast
    ring

/-- Sums of squares over the odd and over the even interior nodes. -/
theorem sum_sq_nodes (a h : α) (j : ℕ) :
    (∑ i in Finset.range (j + 1), (a + ((2 * i + 1 : ℕ) : α) * h) * (a + ((2 * i + 1 : ℕ) : α) * h)
        = (j + 1) * a * a + 2 * a * h * ((j : α) + 1) ^ 2
          + h * h * (((j : α) + 1) * (2 * j + 1) * (2 * j + 3) / 3)) ∧
      (∑ i in Finset.range j, (a + ((2 * (1 + i) : ℕ) : α) * h) * (a + ((2 * (1 + i) : ℕ) : α) * h)
        = j * a * a + 2 * a * h * ((j : α) * (j + 1))
          + h * h * (2 * (j : α) * (j + 1) * (2 * j + 1) / 3)) := by
  constructor
  · induction j with
    | zero => simp; ring
    | succ j ih =>
      rw [Finset.sum_range_succ, ih]
      push_cast
      ring
  · induction j with
    | zero => simp
    | succ j ih =>
      rw [Finset.sum_range_succ, ih]
      push_cast
      ring

theorem integrate_simpson_sq_even (a b : α) (j : ℕ) :
    integrate_simpson (fun x => x * x) a b ((2 * (j + 1) : ℕ) : ℤ) = (b ^ 3 - a ^ 3) / 3 := by
  have hm0 : ((2 * (j + 1) : ℕ) : α) ≠ 0 := by
    have : 0 < 2 * (j + 1) := by omega
    exact_mod_cast this.ne'
  rw [integrate_simpson_eq_sum _ a b (2 * (j + 1)) (by omega)]
  have e : 2 * (j + 1) - 1 = 2 * j + 1 := by omega
  rw [e, simpson_sum_split
    (fun i => (a + (i : α) * ((b - a) / ((2 * (j + 1) : ℕ) : α)))
      * (a + (i : α) * ((b - a) / ((2 * (j + 1) : ℕ) : α)))) j]
  rw [(sum_sq_nodes a ((b - a) / ((2 * (j + 1) : ℕ) : α)) j).1,
    (sum_sq_nodes a ((b - a) / ((2 * (j + 1) : ℕ) : α)) j).2]
  push_cast at hm0 ⊢
  field_simp
  ring

theorem integrate_simpson_sq_pos (a b : α) (n : ℤ) (hn : 0 < n) (hmax : n < INT_MAX) :
    integrate_simpson (fun x => x * x) a b n = (b ^ 3 - a ^ 3) / 3 := by
  have hw : wrapInt (n + 1) = n + 1 := wrapInt_of_int _ (by omega) (by omega)
  rw [integrate_simpson_even_count, hw]
  obtain ⟨m, rfl⟩ := Int.eq_ofNat_of_zero_le hn.le
  by_cases h : (m : ℤ) % 2 ≠ 0
  · rw [if_pos h]
    obtain ⟨j, hj⟩ : ∃ j, m + 1 = 2 * (j + 1) := ⟨(m - 1) / 2, by omega⟩
    have := integrate_simpson_sq_even a b j
    rw [← hj] at this
    have hc : ((m + 1 : ℕ) : ℤ) = (m : ℤ) + 1 := by push_cast; rfl
    rw [hc] at this
    exact this
  · rw [if_neg h]
    obtain ⟨j, hj⟩ : ∃ j, m = 2 * (j + 1) := ⟨(m - 2) / 2, by omega⟩
    have := integrate_simpson_sq_even a b j
    rw [← hj] at this
    exact this

/-- Below `INT_MAX` Simpson's rule is exact on `x ^ 2`: for all bounds `a`, `b` and every
positive `n < INT_MAX`, `integrate_simpson f a b n = (b ^ 3 - a ^ 3) / 3`, and `1 / 3` on
`[0, 1]`. -/
theorem integrate_simpson_sq_below_int_max (a b : α) (n : ℤ) (hn : 0 < n) (hmax : n < INT_MAX) :
    integrate_simpson (fun x => x ^ 2) a b n = (b ^ 3 - a ^ 3) / 3 ∧
      integrate_simpson (fun x : α => x ^ 2) 0 1 n = 1 / 3 := by
  have e : (fun x : α => x ^ 2) = (fun x => x * x) := by
    funext x
    exact pow_two x
  rw [e]
  refine ⟨integrate_simpson_sq_pos a b n hn hmax, ?_⟩
  rw [integrate_simpson_sq_pos 0 1 n hn hmax]
  norm_num

/-- C11 (evaluation at the failing input): for `f x = x ^ 2` on `[0, 1]` and `n = INT_MAX` the
increment `n++` wraps to `-2 ^ 31`, the loop is empty and the result is
`(f 0 + f 1) * (1 / -2 ^ 31) / 3 = -1 / 6442450944`, not `1 / 3`. -/
theorem integrate_simpson_sq_int_max :
    integrate_simpson (fun x : ℚ => x ^ 2) 0 1 2147483647 = -1 / 6442450944 ∧
      integrate_simpson (fun x : ℚ => x ^ 2) 0 1 2147483647 ≠ 1 / 3 := by
  have h : (2147483647 : ℤ) % 2 ≠ 0 := by norm_num
  have hw : wrapInt (2147483647 + 1) = -2147483648 := by
    unfold wrapInt
    norm_num
  have hv : integrate_simpson (fun x : ℚ => x ^ 2) 0 1 2147483647 = -1 / 6442450944 := by
    rw [integrate_simpson_even_count, if_pos h, hw,
      integrate_simpson_of_nonpos _ _ _ _ (by norm_num) (by norm_num)]
    norm_num
  refine ⟨hv, ?_⟩
  rw [hv]
  norm_num

theorem integrate_rectangle_affine_pos (p q a b : α) (n : ℤ) (hn : 0 < n) :
    integrate_rectangle (fun x => p * x + q) a b n
      = p * (b ^ 2 - a ^ 2) / 2 + q * (b - a) := by
  obtain ⟨m, rfl⟩ := Int.eq_ofNat_of_zero_le hn.le
  have hm0 : (m : α) ≠ 0 := by
    have : 0 < m := by exact_mod_cast hn
    exact_mod_cast this.ne'
  rw [integrate_rectangle_eq_sum, sum_affine_midpoints]
  field_simp
  ring

/-- C12: for every affine `f x = p * x + q`, all bounds `a`, `b` and every positive `n`,
`integrate_rectangle f a b n = p * (b ^ 2 - a ^ 2) / 2 + q * (b - a)` in exact arithmetic; in
particular for `f x = x` on `[0, 1]` the result is `1 / 2` for every positive `n`, and for
`n = 1000`. -/
theorem integrate_rectangle_affine (p q a b : α) (n : ℤ) (hn : 0 < n) :
    integrate_rectangle (fun x => p * x + q) a b n
        = p * (b ^ 2 - a ^ 2) / 2 + q * (b - a) ∧
      integrate_rectangle (fun x : α => x) 0 1 n = 1 / 2 ∧
      integrate_rectangle (fun x : α => x) 0 1 1000 = 1 / 2 := by
  have hid : ∀ k : ℤ, 0 < k → integrate_rectangle (fun x : α => x) 0 1 k = 1 / 2 := by
    intro k hk
    have e : (fun x : α => x) = (fun x => 1 * x + 0) := by
      funext x
      ring
    rw [e, integrate_rectangle_affine_pos 1 0 0 1 k hk]
    norm_num
  exact ⟨integrate_rectangle_affine_pos p q a b n hn, hid n hn, hid 1000 (by norm_num)⟩

theorem integrate_rectangle_affine_witness :
    (0 : ℤ) < 4 ∧
      (integrate_rectangle (fun x : ℚ => 3 * x + 2) 1 5 4
          = 3 * ((5 : ℚ) ^ 2 - 1 ^ 2) / 2 + 2 * (5 - 1) ∧
        integrate_rectangle (fun x : ℚ => x) 0 1 4 = 1 / 2 ∧
        integrate_rectangle (fun x : ℚ => x) 0 1 1000 = 1 / 2) :=
  ⟨by decide, integrate_rectangle_affine 3 2 1 5 4 (by decide)⟩

/-- C18: for every `f`, all bounds `a`, `b` and every positive `n`, in exact arithmetic,
`integrate_simpson f a b (2 * n)
  = (2 * integrate_rectangle f a b n + integrate_trapezoid f a b n) / 3`. -/
theorem integrate_simpson_eq_rectangle_trapezoid (f : α → α) (a b : α) (n : ℤ) (hn : 0 < n) :
    integrate_simpson f a b (2 * n)
      = (2 * integrate_rectangle f a b n + integrate_trapezoid f a b n) / 3 := by
  obtain ⟨m, rfl⟩ := Int.eq_ofNat_of_zero_le hn.le
  have hmpos : 0 < m := by exact_mod_cast hn
  have hm0 : (m : α) ≠ 0 := by exact_mod_cast hmpos.ne'
  obtain ⟨j, rfl⟩ : ∃ j, m = j + 1 := ⟨m - 1, by omega⟩
  have hc : (2 * ((j + 1 : ℕ) : ℤ)) = ((2 * (j + 1) : ℕ) : ℤ) := by push_cast; ring
  rw [hc, integrate_simpson_eq_sum f a b (2 * (j + 1)) (by omega),
    integrate_rectangle_eq_sum, integrate_trapezoid_eq_sum]
  have e : 2 * (j + 1) - 1 = 2 * j + 1 := by omega
  have e' : j + 1 - 1 = j := by omega
  rw [e, e', simpson_sum_split (fun i => f (a + (i : α) * ((b - a) / ((2 * (j + 1) : ℕ) : α)))) j]
  have hw : (b - a) / ((2 * (j + 1) : ℕ) : α) = (b - a) / ((j + 1 : ℕ) : α) / 2 := by
    have h2 : ((2 * (j + 1) : ℕ) : α) = ((j + 1 : ℕ) : α) * 2 := by push_cast; ring
    rw [h2, div_div]
  have hodd : ∀ i : ℕ, a + ((2 * i + 1 : ℕ) : α) * ((b - a) / ((2 * (j + 1) : ℕ) : α))
      = a + ((i : α) + 1 / 2) * ((b - a) / ((j + 1 : ℕ) : α)) := by
    intro i
    rw [hw]
    push_cast
    ring
  have heven : ∀ i : ℕ, a + ((2 * (1 + i) : ℕ) : α) * ((b - a) / ((2 * (j + 1) : ℕ) : α))
      = a + ((1 + i : ℕ) : α) * ((b - a) / ((j + 1 : ℕ) : α)) := by
    intro i
    rw [hw]
    push_cast
    ring
  simp only [hodd, heven]
  push_cast at hm0 ⊢
  field_simp
  ring

theorem integrate_simpson_eq_rectangle_trapezoid_witness :
    (0 : ℤ) < 3 ∧
      integrate_simpson (fun x : ℚ => x * x * x) 0 2 (2 * 3)
        = (2 * integrate_rectangle (fun x : ℚ => x * x * x) 0 2 3
            + integrate_trapezoid (fun x : ℚ => x * x * x) 0 2 3) / 3 :=
  ⟨by decide, integrate_simpson_eq_rectangle_trapezoid (fun x : ℚ => x * x * x) 0 2 3 (by decide)⟩

end QuadratureExact

section SeriesFacts

variable {α : Type} [LinearOrderedField α]

theorem foldl_mul_range (g : ℕ → α) (init : α) (n : ℕ) :
    (List.range n).foldl (fun (s : α) (i : ℕ) => s * g i) init
      = init * ∏ i in Finset.range n, g i := by
  induction n with
  | zero => simp
  | succ n ih =>
    rw [List.range_succ, List.foldl_append, ih, Finset.prod_range_succ]
    simp [mul_assoc]

theorem foldl_mul_range' (g : ℕ → α) (init : α) (s n : ℕ) :
    (List.range' s n).foldl (fun (acc : α) (i : ℕ) => acc * g i) init
      = init * ∏ i in Finset.range n, g (s + i) := by
  rw [List.range'_eq_map_range, List.foldl_map]
  exact foldl_mul_range (fun i => g (s + i)) init n

/-- The integers `1, ..., n` as the image of `0, ..., n - 1`. -/
theorem int_Icc_one (n : ℤ) :
    Finset.Icc (1 : ℤ) n
      = (Finset.range n.toNat).map
          (Nat.castEmbedding.trans (addLeftEmbedding (1 : ℤ))) := by
  rw [Int.Icc_eq_finset_map]
  congr 2
  omega

omit [LinearOrderedField α] in
/-- Below `INT_MAX` the loop of the series functions ends: entered at `j + 1` with `d` indices
left, it returns the fold over those indices as soon as more than `d` loop tests are allowed. -/
theorem series_loop_returns (step : α → ℤ → α) (n : ℤ) (hmax : n < INT_MAX) :
    ∀ (d j fuel : ℕ) (acc : α), j + d = n.toNat → d < fuel →
      series_loop step n fuel ((j : ℤ) + 1) acc
        = some ((List.range' (j + 1) d).foldl (fun (acc : α) (i : ℕ) => step acc (i : ℤ)) acc) := by
  unfold INT_MAX at hmax
  intro d
  induction d with
  | zero =>
    intro j fuel acc hj hf
    obtain ⟨g, rfl⟩ : ∃ g, fuel = g + 1 := ⟨fuel - 1, by omega⟩
    have hc : ¬ ((j : ℤ) + 1 ≤ n) := by omega
    simp only [series_loop, if_neg hc, List.range'_zero, List.foldl_nil]
  | succ d ih =>
    intro j fuel acc hj hf
    obtain ⟨g, rfl⟩ : ∃ g, fuel = g + 1 := ⟨fuel - 1, by omega⟩
    have hc : (j : ℤ) + 1 ≤ n := by omega
    have hw : wrapInt ((j : ℤ) + 1 + 1) = ((j + 1 : ℕ) : ℤ) + 1 := by
      rw [wrapInt_of_int _ (by omega) (by unfold INT_MAX; omega)]
      push_cast
      rfl
    have hstep := ih (j + 1) g (step acc ((j : ℤ) + 1)) (by omega) (by omega)
    simp only [series_loop, if_pos hc, hw, hstep, List.range'_succ, List.foldl_cons]
    push_cast
    rfl

omit [LinearOrderedField α] in
/-- At `n = INT_MAX` the loop test `i <= n` holds for every `int`, so the loop never ends. -/
theorem series_loop_no_return (step : α → ℤ → α) (fuel : ℕ) :
    ∀ (i : ℤ) (acc : α), i ≤ INT_MAX → series_loop step INT_MAX fuel i acc = none := by
  induction fuel with
  | zero => intro i acc _; rfl
  | succ fuel ih =>
    intro i acc hi
    simp only [series_loop, if_pos hi]
    exact ih _ _ (wrapInt_le _)

theorem sum_series_returns (term : ℤ → α) (n : ℤ) (hmax : n < INT_MAX) (fuel : ℕ)
    (hf : n.toNat < fuel) :
    sum_series term n fuel = some (∑ i in Finset.Icc (1 : ℤ) n, term i) := by
  have h := series_loop_returns (fun (sum : α) (i : ℤ) => sum + term i) n hmax n.toNat 0 fuel 0
    (by omega) hf
  unfold sum_series
  simp only [Nat.cast_zero, zero_add] at h
  rw [h, foldl_add_range' (fun i => term (i : ℤ)), zero_add, int_Icc_one, Finset.sum_map]
  congr 1

theorem product_series_returns (term : ℤ → α) (n : ℤ) (hmax : n < INT_MAX) (fuel : ℕ)
    (hf : n.toNat < fuel) :
    product_series term n fuel = some (∏ i in Finset.Icc (1 : ℤ) n, term i) := by
  have h := series_loop_returns (fun (product : α) (i : ℤ) => product * term i) n hmax
    n.toNat 0 fuel 1 (by omega) hf
  unfold product_series
  simp only [Nat.cast_zero, zero_add] at h
  rw [h, foldl_mul_range' (fun i => term (i : ℤ)), one_mul, int_Icc_one, Finset.prod_map]
  congr 1

/-- Below `INT_MAX` the series functions return the sum and the product of `term i` over
`i = 1, ..., n`: for every `n < INT_MAX` and every bound above `n` on the number of loop tests,
`sum_series term n` returns the sum and `product_series term n` the product over the integers
from `1` to `n`; for `n < 1` these are `0` and `1`; `sum_series (i ↦ 1) 5 = 5` and
`product_series (i ↦ 1) 0 = 1`. -/
theorem series_spec_below_int_max (term : ℤ → α) (n : ℤ) (hmax : n < INT_MAX) (fuel : ℕ)
    (hf : n.toNat < fuel) :
    sum_series term n fuel = some (∑ i in Finset.Icc (1 : ℤ) n, term i) ∧
      product_series term n fuel = some (∏ i in Finset.Icc (1 : ℤ) n, term i) ∧
      (n < 1 → sum_series term n fuel = some 0 ∧ product_series term n fuel = some 1) ∧
      sum_series (fun _ => (1 : α)) 5 6 = some 5 ∧
      product_series (fun _ => (1 : α)) 0 1 = some 1 := by
  have h5 : (5 : ℤ) < INT_MAX := by unfold INT_MAX; norm_num
  have h0 : (0 : ℤ) < INT_MAX := by unfold INT_MAX; norm_num
  refine ⟨sum_series_returns term n hmax fuel hf, product_series_returns term n hmax fuel hf,
    fun h => ?_, ?_, ?_⟩
  · have he : Finset.Icc (1 : ℤ) n = ∅ := Finset.Icc_eq_empty (by omega)
    rw [sum_series_returns term n hmax fuel hf, product_series_returns term n hmax fuel hf, he,
      Finset.sum_empty, Finset.prod_empty]
    exact ⟨rfl, rfl⟩
  · rw [sum_series_returns _ 5 h5 6 (by decide)]
    simp
  · rw [product_series_returns _ 0 h0 1 (by decide)]
    simp

/-- C13 (evaluation at the failing input): for `n = INT_MAX` neither series function returns,
whatever the number of loop tests allowed: the test `i <= n` holds for every `int` and `++i`
wraps from `INT_MAX` to `-2 ^ 31`. -/
theorem series_no_return_at_int_max (term : ℤ → α) (fuel : ℕ) :
    sum_series term 2147483647 fuel = none ∧ product_series term 2147483647 fuel = none := by
  have h1 : (1 : ℤ) ≤ INT_MAX := by unfold INT_MAX; norm_num
  exact ⟨series_loop_no_return _ fuel 1 0 h1, series_loop_no_return _ fuel 1 1 h1⟩

end SeriesFacts

section FilterFacts

variable {α : Type} [LinearOrder α]

theorem filter_loop (threshold : α) (data acc : List α) :
    data.foldl
      (fun (result : List α) (value : α) =>
        if value > threshold then result ++ [value] else result) acc
      = acc ++ data.filter (fun value => decide (value > threshold)) := by
  induction data generalizing acc with
  | nil => simp
  | cons x xs ih =>
    rw [List.foldl_cons, ih]
    by_cases h : x > threshold
    · simp [h]
    · simp [h]

theorem filter_eq (data : List α) (threshold : α) :
    filter data threshold = data.filter (fun value => decide (value > threshold)) := by
  unfold filter
  rw [filter_loop]
  simp

/-- C14: `filter data t` is the subsequence of `data` of all elements strictly greater than
`t`, in their original order: it is `data` with the other elements removed, it is a sublist of
`data` no longer than `data`, its elements are exactly the elements of `data` above `t`
(so `t` itself is never in it), and every element above `t` keeps its multiplicity.
`filter [1, 5, 10] 5 = [10]`. -/
theorem filter_spec (data : List α) (t : α) :
    filter data t = data.filter (fun x => decide (t < x)) ∧
      (filter data t).Sublist data ∧
      (filter data t).length ≤ data.length ∧
      (∀ x, x ∈ filter data t ↔ x ∈ data ∧ t < x) ∧
      t ∉ filter data t ∧
      (∀ x, t < x → (filter data t).count x = data.count x) ∧
      filter ([1, 5, 10] : List ℚ) 5 = [10] := by
  have he : filter data t = data.filter (fun x => decide (t < x)) := filter_eq data t
  refine ⟨he, ?_, ?_, ?_, ?_, ?_, ?_⟩
  · rw [he]; exact List.filter_sublist _
  · rw [he]; exact List.length_filter_le _ _
  · intro x; rw [he]; simp
  · rw [he]; simp
  · intro x hx; rw [he]; exact List.count_filter (by simpa using hx)
  · rw [filter_eq]
    norm_num [List.filter]

theorem filter_spec_witness :
    (5 : ℚ) < 10 ∧ (filter ([1, 5, 10] : List ℚ) 5).count 10 = ([1, 5, 10] : List ℚ).count 10 :=
  ⟨by norm_num, (filter_spec ([1, 5, 10] : List ℚ) 5).2.2.2.2.2.1 10 (by norm_num)⟩

end FilterFacts

section RollingZero

variable {α : Type} [LinearOrderedField α]

/-- C15: `calculate_rolling_mean data 0 = data`: a window of `0` is a window of one element
and performs no smoothing. -/
theorem calculate_rolling_mean_zero (data : List α) :
    calculate_rolling_mean data 0 = data ∧
      (∀ i, window_start i 0 = i ∧ i - window_start i 0 + 1 = 1) := by
  have hw : ∀ i, window_start i 0 = i := by
    intro i
    simp [window_start]
  refine ⟨?_, fun i => ⟨hw i, by rw [hw]; omega⟩⟩
  rw [calculate_rolling_mean_eq]
  apply List.ext_getElem
  · simp
  · intro i h1 h2
    simp [hw, List.getD_eq_getElem?_getD, List.getElem?_eq_getElem h2]

end RollingZero

section VarianceFacts

variable {α : Type} [LinearOrderedField α]

theorem foldl_add_eq_sum (data : List α) (init : α) :
    data.foldl (fun acc x => acc + x) init = init + data.sum := by
  induction data generalizing init with
  | nil => simp
  | cons x xs ih => rw [List.foldl_cons, ih, List.sum_cons, add_assoc]

theorem foldl_inner_product_eq_sum (data : List α) (init : α) :
    (data.zip data).foldl (fun acc xy => acc + xy.1 * xy.2) init
      = init + (data.map (fun x => x * x)).sum := by
  induction data generalizing init with
  | nil => simp
  | cons x xs ih =>
    rw [List.zip_cons_cons, List.foldl_cons, ih, List.map_cons, List.sum_cons, add_assoc]

theorem sum_sq_dev (data : List α) (c : α) :
    (data.map (fun x => (x - c) ^ 2)).sum
      = (data.map (fun x => x * x)).sum - 2 * c * data.sum + data.length * c ^ 2 := by
  induction data with
  | nil => simp
  | cons x xs ih =>
    simp only [List.map_cons, List.sum_cons, List.length_cons, ih]
    push_cast
    ring

theorem stdev_radicand_eq (data : List α) (hne : data ≠ []) :
    (data.zip data).foldl (fun acc xy => acc + xy.1 * xy.2) 0 / (data.length : α)
        - data.foldl (fun acc x => acc + x) 0 / (data.length : α)
          * (data.foldl (fun acc x => acc + x) 0 / (data.length : α))
      = two_pass_variance data := by
  have hn : (data.length : α) ≠ 0 := by
    have : 0 < data.length := List.length_pos.mpr hne
    exact_mod_cast this.ne'
  unfold two_pass_variance
  simp only
  rw [foldl_add_eq_sum, foldl_inner_product_eq_sum, zero_add, zero_add, sum_sq_dev]
  field_simp
  ring

theorem two_pass_variance_nonneg (data : List α) : 0 ≤ two_pass_variance data := by
  unfold two_pass_variance
  simp only
  apply div_nonneg
  · apply List.sum_nonneg
    intro x hx
    rw [List.mem_map] at hx
    obtain ⟨y, _, rfl⟩ := hx
    positivity
  · positivity

/-- C17: for every non-empty `data` of length `n` with mean `m`, the quantity under the square
root in `calculateStats`, `(sum of x_i^2) / n - m^2`, equals the two-pass population variance
`(sum of (x_i - m)^2) / n` in exact arithmetic and is therefore non-negative; the standard
deviation returned is the square root of the two-pass variance. -/
theorem single_pass_variance_eq_two_pass (sqrt : α → α) (data : List α) (hne : data ≠ []) :
    (data.zip data).foldl (fun acc xy => acc + xy.1 * xy.2) 0 / (data.length : α)
        - data.foldl (fun acc x => acc + x) 0 / (data.length : α)
          * (data.foldl (fun acc x => acc + x) 0 / (data.length : α))
        = two_pass_variance data ∧
      0 ≤ (data.zip data).foldl (fun acc xy => acc + xy.1 * xy.2) 0 / (data.length : α)
        - data.foldl (fun acc x => acc + x) 0 / (data.length : α)
          * (data.foldl (fun acc x => acc + x) 0 / (data.length : α)) ∧
      ∃ mean median, calculateStats sqrt data = [mean, median, sqrt (two_pass_variance data)] := by
  refine ⟨stdev_radicand_eq data hne, ?_, ?_⟩
  · rw [stdev_radicand_eq data hne]
    exact two_pass_variance_nonneg data
  · rw [calculateStats_eq sqrt data hne, stdev_radicand_eq data hne]
    exact ⟨_, _, rfl⟩

theorem single_pass_variance_eq_two_pass_witness :
    ([1, 2, 4] : List ℚ) ≠ [] ∧
      (([1, 2, 4] : List ℚ).zip [1, 2, 4]).foldl (fun acc xy => acc + xy.1 * xy.2) 0
          / (([1, 2, 4] : List ℚ).length : ℚ)
        - ([1, 2, 4] : List ℚ).foldl (fun acc x => acc + x) 0 / (([1, 2, 4] : List ℚ).length : ℚ)
          * (([1, 2, 4] : List ℚ).foldl (fun acc x => acc + x) 0
            / (([1, 2, 4] : List ℚ).length : ℚ))
        = two_pass_variance ([1, 2, 4] : List ℚ) :=
  ⟨by simp, (single_pass_variance_eq_two_pass (fun x => x) ([1, 2, 4] : List ℚ) (by simp)).1⟩

end VarianceFacts

section PermFacts

variable {α : Type} [LinearOrderedField α]

omit [LinearOrderedField α] in
theorem std_sort_eq_of_perm [LinearOrder α] (S T : List α) (h : T.Perm S) :
    std_sort S = std_sort T :=
  (std_sort_unique S (std_sort T) ((std_sort_perm T).trans h) (std_sort_sorted T)).symm

theorem calculate_percentiles_eq_of_perm (S T : List α) (h : T.Perm S) :
    calculate_percentiles S = calculate_percentiles T := by
  unfold calculate_percentiles
  rw [h.isEmpty_eq, std_sort_eq_of_perm S T h]

theorem calculateStats_eq_of_perm (sqrt : α → α) (S T : List α) (h : T.Perm S) :
    calculateStats sqrt S = calculateStats sqrt T := by
  by_cases hS : S = []
  · subst hS
    rw [List.perm_nil.mp h]
  · have hT : T ≠ [] := fun hT => hS (by rw [hT] at h; exact List.nil_perm.mp h)
    rw [calculateStats_eq sqrt S hS, calculateStats_eq sqrt T hT]
    simp only [foldl_add_eq_sum, foldl_inner_product_eq_sum, std_sort_eq_of_perm S T h,
      h.length_eq, h.sum_eq, (h.map (fun x => x * x)).sum_eq]

/-- C19: `sort_data`, `calculate_percentiles` and `calculateStats` depend only on the multiset
of the input: if `T` is a permutation of `S` then the three results on `S` and on `T` are equal
(mean and standard deviation in exact arithmetic). -/
theorem results_eq_of_perm (sqrt : α → α) (S T : List α) (h : T.Perm S) :
    sort_data S = sort_data T ∧
      calculate_percentiles S = calculate_percentiles T ∧
      calculateStats sqrt S = calculateStats sqrt T :=
  ⟨std_sort_eq_of_perm S T h, calculate_percentiles_eq_of_perm S T h,
    calculateStats_eq_of_perm sqrt S T h⟩

theorem results_eq_of_perm_witness :
    ([2, 3, 1] : List ℚ).Perm [1, 2, 3] ∧
      (sort_data ([1, 2, 3] : List ℚ) = sort_data ([2, 3, 1] : List ℚ) ∧
        calculate_percentiles ([1, 2, 3] : List ℚ) = calculate_percentiles ([2, 3, 1] : List ℚ) ∧
        calculateStats (fun x => x) ([1, 2, 3] : List ℚ)
          = calculateStats (fun x => x) ([2, 3, 1] : List ℚ)) :=
  ⟨by decide, results_eq_of_perm (fun x => x) [1, 2, 3] [2, 3, 1] (by decide)⟩

end PermFacts

/-! ## Accuracy of the binary64 model -/

/-- The rounded quotient is within one half of the exact quotient. -/
theorem divRoundEven_near (num den : ℕ) (hden : 0 < den) :
    2 * (divRoundEven num den * den) ≤ 2 * num + den ∧
      2 * num ≤ 2 * (divRoundEven num den * den) + den := by
  have hdm := Nat.div_add_mod num den
  have hlt := Nat.mod_lt num hden
  have hP : num / den * den = den * (num / den) := Nat.mul_comm _ _
  have hS : (num / den + 1) * den = den * (num / den) + den := by ring
  unfold divRoundEven
  simp only
  split_ifs <;> simp only [hS, hP] <;> omega

theorem Double.mul_ratio (x y : Double) :
    ((x.man * y.man * 2 ^ (x.exp + y.exp).toNat : ℕ) : ℚ)
        / ((2 ^ (-(x.exp + y.exp)).toNat : ℕ) : ℚ)
      = x.toRat * y.toRat := by
  unfold Double.toRat
  have e : (x.man : ℚ) * 2 ^ x.exp * (y.man * 2 ^ y.exp)
      = x.man * y.man * 2 ^ (x.exp + y.exp) := by
    rw [zpow_add₀ (by norm_num)]; ring
  rw [e, zpow_two_split (x.exp + y.exp)]
  push_cast
  ring

theorem Double.div_ratio (x y : Double) :
    ((x.man * 2 ^ (x.exp - y.exp).toNat : ℕ) : ℚ)
        / ((y.man * 2 ^ (y.exp - x.exp).toNat : ℕ) : ℚ)
      = x.toRat / y.toRat := by
  unfold Double.toRat
  have e : (2 : ℚ) ^ x.exp = 2 ^ y.exp * 2 ^ (x.exp - y.exp) := by
    rw [← zpow_add₀ (by norm_num)]; congr 1; ring
  have hs := zpow_two_split (x.exp - y.exp)
  rw [neg_sub] at hs
  rw [e, hs]
  have hp : (2 : ℚ) ^ y.exp ≠ 0 := by positivity
  have hq : (2 : ℚ) ^ (y.exp - x.exp).toNat ≠ 0 := by positivity
  push_cast
  by_cases hy : (y.man : ℚ) = 0
  · simp [hy]
  · field_simp
    ring

/-- Relative accuracy of `roundQuot`: the result is within `2 ^ (-53)` of the exact quotient,
relatively. -/
theorem roundQuot_rel_err (a b : ℕ) (hb : 0 < b) :
    (a : ℚ) / b * (1 - 2 ^ (-53 : ℤ)) ≤ (roundQuot a b).toRat ∧
      (roundQuot a b).toRat ≤ (a : ℚ) / b * (1 + 2 ^ (-53 : ℤ)) := by
  unfold roundQuot
  split_ifs with ha
  · simp [Double.toRat, ha]
  · have hbq : (0 : ℚ) < b := by exact_mod_cast hb
    obtain ⟨hlo, -⟩ := floorLog2_spec a b (Nat.pos_of_ne_zero ha) hb
    obtain ⟨n1, n2⟩ := divRoundEven_near (a * 2 ^ (-(floorLog2 a b - 52)).toNat)
      (b * 2 ^ (floorLog2 a b - 52).toNat) (by positivity)
    simp only [Double.toRat]
    generalize divRoundEven (a * 2 ^ (-(floorLog2 a b - 52)).toNat)
      (b * 2 ^ (floorLog2 a b - 52).toNat) = m at n1 n2
    have hs := zpow_two_split (floorLog2 a b - 52)
    have hA : (0 : ℚ) < 2 ^ (-(floorLog2 a b - 52)).toNat := by positivity
    have hB : (0 : ℚ) < 2 ^ (floorLog2 a b - 52).toNat := by positivity
    have q1 : 2 * ((m : ℚ) * (b * 2 ^ (floorLog2 a b - 52).toNat))
        ≤ 2 * (a * 2 ^ (-(floorLog2 a b - 52)).toNat) + b * 2 ^ (floorLog2 a b - 52).toNat := by
      exact_mod_cast n1
    have q2 : 2 * ((a : ℚ) * 2 ^ (-(floorLog2 a b - 52)).toNat)
        ≤ 2 * (m * (b * 2 ^ (floorLog2 a b - 52).toNat)) + b * 2 ^ (floorLog2 a b - 52).toNat := by
      exact_mod_cast n2
    have hu : (2 : ℚ) ^ (floorLog2 a b - 52) / 2 ≤ (a : ℚ) / b * 2 ^ (-53 : ℤ) := by
      have e : (2 : ℚ) ^ (floorLog2 a b - 52) / 2 = 2 ^ floorLog2 a b * 2 ^ (-53 : ℤ) := by
        rw [zpow_sub₀ (by norm_num)]
        norm_num
        ring
      rw [e]
      apply mul_le_mul_of_nonneg_right _ (by positivity)
      rw [le_div_iff₀ hbq]
      exact hlo
    generalize (2 : ℚ) ^ (-(floorLog2 a b - 52)).toNat = A at hs hA q1 q2
    generalize (2 : ℚ) ^ (floorLog2 a b - 52).toNat = B at hs hB q1 q2
    generalize (2 : ℚ) ^ (floorLog2 a b - 52) = u at hs hu
    subst hs
    have hx : (a : ℚ) = a / b * b := by field_simp
    generalize (a : ℚ) / b = x at hx hu
    rw [hx] at q1 q2
    have r1 : 2 * ((m : ℚ) * (B / A)) ≤ 2 * x + B / A := by
      rw [← sub_nonneg]
      have : 2 * x + B / A - 2 * ((m : ℚ) * (B / A))
          = (2 * (x * b * A) + b * B - 2 * (m * (b * B))) / (b * A) := by
        field_simp
        ring
      rw [this]
      apply div_nonneg _ (by positivity)
      linarith
    have r2 : 2 * x ≤ 2 * ((m : ℚ) * (B / A)) + B / A := by
      rw [← sub_nonneg]
      have : 2 * ((m : ℚ) * (B / A)) + B / A - 2 * x
          = (2 * (m * (b * B)) + b * B - 2 * (x * b * A)) / (b * A) := by
        field_simp
        ring
      rw [this]
      apply div_nonneg _ (by positivity)
      linarith
    constructor <;> linarith

theorem Double.div_rel_err (x y : Double) (hy : 0 < y.man) :
    x.toRat / y.toRat * (1 - 2 ^ (-53 : ℤ)) ≤ (Double.div x y).toRat ∧
      (Double.div x y).toRat ≤ x.toRat / y.toRat * (1 + 2 ^ (-53 : ℤ)) := by
  have h := roundQuot_rel_err (x.man * 2 ^ (x.exp - y.exp).toNat)
    (y.man * 2 ^ (y.exp - x.exp).toNat) (by positivity)
  rw [Double.div_ratio] at h
  exact h

theorem Double.mul_rel_err (x y : Double) :
    x.toRat * y.toRat * (1 - 2 ^ (-53 : ℤ)) ≤ (Double.mul x y).toRat ∧
      (Double.mul x y).toRat ≤ x.toRat * y.toRat * (1 + 2 ^ (-53 : ℤ)) := by
  have h := roundQuot_rel_err (x.man * y.man * 2 ^ (x.exp + y.exp).toNat)
    (2 ^ (-(x.exp + y.exp)).toNat) (by positivity)
  rw [Double.mul_ratio] at h
  exact h

/-- The machine index does not decrease when the percentile grows. -/
theorem percentile_index_mono (p p' size : ℕ) (hpp : p ≤ p') (hp' : p' ≤ 100) :
    percentile_index p size ≤ percentile_index p' size := by
  rcases Nat.eq_or_lt_of_le hpp with rfl | hlt
  · exact le_rfl
  have hman : 0 < (Double.ofNat 100).man := by decide
  have h100 : (Double.ofNat 100).toRat = 100 := by
    have := Double.ofNat_toRat 100 (by norm_num)
    simpa using this
  have hp : (Double.ofNat p).toRat = p := Double.ofNat_toRat p (by omega)
  have hp2 : (Double.ofNat p').toRat = p' := Double.ofNat_toRat p' (by omega)
  obtain ⟨-, c_hi⟩ := Double.div_rel_err (Double.ofNat p) (Double.ofNat 100) hman
  obtain ⟨c_lo, -⟩ := Double.div_rel_err (Double.ofNat p') (Double.ofNat 100) hman
  rw [hp, h100] at c_hi
  rw [hp2, h100] at c_lo
  obtain ⟨-, m_hi⟩ := Double.mul_rel_err (Double.div (Double.ofNat p) (Double.ofNat 100))
    (Double.ofNat (size - 1))
  obtain ⟨m_lo, -⟩ := Double.mul_rel_err (Double.div (Double.ofNat p') (Double.ofNat 100))
    (Double.ofNat (size - 1))
  have hY := Double.toRat_nonneg (Double.ofNat (size - 1))
  have hc0 := Double.toRat_nonneg (Double.div (Double.ofNat p) (Double.ofNat 100))
  have hu : (2 : ℚ) ^ (-53 : ℤ) = 1 / 9007199254740992 := by norm_num
  rw [hu] at c_hi c_lo m_hi m_lo
  have hpq : (p : ℚ) + 1 ≤ p' := by exact_mod_cast hlt
  have hp0 : (0 : ℚ) ≤ p := by positivity
  have hp100 : (p' : ℚ) ≤ 100 := by exact_mod_cast hp'
  unfold percentile_index
  rw [Double.toSizeT_eq_floor, Double.toSizeT_eq_floor]
  apply Nat.floor_mono
  generalize (Double.ofNat (size - 1)).toRat = Y at *
  generalize (Double.div (Double.ofNat p) (Double.ofNat 100)).toRat = c at *
  generalize (Double.div (Double.ofNat p') (Double.ofNat 100)).toRat = c' at *
  have s1 : c * Y * (1 + 1 / 9007199254740992)
      ≤ (p : ℚ) / 100 * (1 + 1 / 9007199254740992) * Y * (1 + 1 / 9007199254740992) := by
    gcongr
  have s2 : (p' : ℚ) / 100 * (1 - 1 / 9007199254740992) * Y * (1 - 1 / 9007199254740992)
      ≤ c' * Y * (1 - 1 / 9007199254740992) := by
    have : (0 : ℚ) ≤ 1 - 1 / 9007199254740992 := by norm_num
    gcongr
  have s3 : (p : ℚ) / 100 * (1 + 1 / 9007199254740992) * Y * (1 + 1 / 9007199254740992)
      ≤ (p' : ℚ) / 100 * (1 - 1 / 9007199254740992) * Y * (1 - 1 / 9007199254740992) := by
    have k : (p : ℚ) / 100 * (1 + 1 / 9007199254740992) * (1 + 1 / 9007199254740992)
        ≤ (p' : ℚ) / 100 * (1 - 1 / 9007199254740992) * (1 - 1 / 9007199254740992) := by
      linarith
    have := mul_le_mul_of_nonneg_right k hY
    linarith
  linarith

section PercentileOrder

variable {α : Type} [LinearOrderedField α]

theorem getD_mem_of_lt (s : List α) (i : ℕ) (h : i < s.length) : s.getD i 0 ∈ s := by
  rw [List.getD_eq_getElem _ _ h]
  exact List.getElem_mem h

theorem sorted_getD_le (s : List α) (hs : s.Sorted (· ≤ ·)) (i j : ℕ) (hij : i ≤ j)
    (hj : j < s.length) : s.getD i 0 ≤ s.getD j 0 := by
  rw [List.getD_eq_getElem _ _ (lt_of_le_of_lt hij hj), List.getD_eq_getElem _ _ hj]
  exact hs.rel_get_of_le (by simpa [Fin.le_def] using hij)

theorem calculate_percentiles_sorted (data : List α) (hne : data ≠ [])
    (hlen : data.length ≤ 2 ^ 53) : (calculate_percentiles data).Sorted (· ≤ ·) := by
  have hpos : 0 < data.length := List.length_pos.mpr hne
  have hl : (std_sort data).length = data.length := std_sort_length data
  rw [calculate_percentiles_eq data hne]
  unfold List.Sorted sort_data
  rw [List.pairwise_map]
  refine List.Pairwise.imp_of_mem ?_ (List.pairwise_lt_range 21)
  intro a b _ hb hab
  have hb21 : b < 21 := List.mem_range.mp hb
  have h1 := percentile_index_mono (5 * a) (5 * b) data.length (by omega) (by omega)
  have h2 := percentile_index_le (5 * b) data.length (by omega) hpos hlen
  exact sorted_getD_le _ (std_sort_sorted data) _ _ h1 (by omega)

theorem calculate_percentiles_subset (data : List α) (hne : data ≠ [])
    (hlen : data.length ≤ 2 ^ 53) : ∀ x ∈ calculate_percentiles data, x ∈ data := by
  have hpos : 0 < data.length := List.length_pos.mpr hne
  have hl : (std_sort data).length = data.length := std_sort_length data
  intro x hx
  rw [calculate_percentiles_eq data hne, List.mem_map] at hx
  unfold sort_data at hx
  obtain ⟨k, hk, rfl⟩ := hx
  have hk21 : k < 21 := List.mem_range.mp hk
  have h2 := percentile_index_le (5 * k) data.length (by omega) hpos hlen
  exact (std_sort_perm data).mem_iff.mp (getD_mem_of_lt _ _ (by omega))

end PercentileOrder

/-! ## Percentiles: extremes and order -/

section PercentileClaims

variable {α : Type} [LinearOrderedField α]

/-- C20: for every non-empty `data` (a vector a machine can hold, at most `2 ^ 53` elements),
the result of `calculate_percentiles data` has 21 entries, is non-decreasing, and each of its
entries is an element of `data`. -/
theorem percentiles_sorted_subset (data : List α) (hne : data ≠ [])
    (hlen : data.length ≤ 2 ^ 53) :
    (calculate_percentiles data).length = 21 ∧
      (calculate_percentiles data).Sorted (· ≤ ·) ∧
      (∀ i (h : i + 1 < (calculate_percentiles data).length),
        (calculate_percentiles data).get ⟨i, Nat.lt_of_succ_lt h⟩
          ≤ (calculate_percentiles data).get ⟨i + 1, h⟩) ∧
      ∀ x ∈ calculate_percentiles data, x ∈ data := by
  have hs := calculate_percentiles_sorted data hne hlen
  refine ⟨calculate_percentiles_length data hne, hs, fun i h => ?_,
    calculate_percentiles_subset data hne hlen⟩
  exact List.Sorted.rel_get_of_lt hs (by simp [Fin.lt_def])

theorem percentiles_sorted_subset_witness :
    ([3, 1, 2, 4] : List ℚ) ≠ [] ∧ ([3, 1, 2, 4] : List ℚ).length ≤ 2 ^ 53 ∧
      ((calculate_percentiles ([3, 1, 2, 4] : List ℚ)).length = 21 ∧
        (calculate_percentiles ([3, 1, 2, 4] : List ℚ)).Sorted (· ≤ ·) ∧
        (∀ i (h : i + 1 < (calculate_percentiles ([3, 1, 2, 4] : List ℚ)).length),
          (calculate_percentiles ([3, 1, 2, 4] : List ℚ)).get ⟨i, Nat.lt_of_succ_lt h⟩
            ≤ (calculate_percentiles ([3, 1, 2, 4] : List ℚ)).get ⟨i + 1, h⟩) ∧
        ∀ x ∈ calculate_percentiles ([3, 1, 2, 4] : List ℚ), x ∈ ([3, 1, 2, 4] : List ℚ)) :=
  ⟨by simp, by simp, percentiles_sorted_subset ([3, 1, 2, 4] : List ℚ) (by simp) (by simp)⟩

/-- C10: for every non-empty `data` and every window, the indices that `calculate_percentiles`,
`calculate_rolling_mean` and the median step of `calculateStats` compute are in range.
`calculate_percentiles data` is the list of the 21 reads of the sorted copy at the indices
`percentile_index (5 * k)`, each at most `n - 1` (for a vector a machine can hold, at most
`2 ^ 53` elements), so that each read is a checked read.  `calculate_rolling_mean data window`
is the list of the window means, where at each position `i < n` the window start is at most
`i`, the divisor `i - start + 1` is at least `1` and every index `j` read satisfies
`0 ≤ start ≤ j ≤ i < n`.  The median of `calculateStats data` is read at `n/2 - 1` (for even
`n`, where `n/2 ≥ 1`) and `n/2`, both below the length `n` of the sorted copy. -/
theorem indices_in_range (sqrt : α → α) (data : List α) (window : ℕ) (hne : data ≠ []) :
    (calculate_percentiles data =
        (List.range 21).map
          (fun k => (sort_data data).getD (percentile_index (5 * k) (sort_data data).length) 0) ∧
      (data.length ≤ 2 ^ 53 → ∀ k, k ≤ 20 →
        percentile_index (5 * k) (sort_data data).length ≤ (sort_data data).length - 1 ∧
          ∃ h : percentile_index (5 * k) (sort_data data).length < (sort_data data).length,
            (calculate_percentiles data).getD k 0
              = (sort_data data).get ⟨percentile_index (5 * k) (sort_data data).length, h⟩)) ∧
      (calculate_rolling_mean data window =
          (List.range data.length).map (fun i =>
            (∑ j in Finset.Icc (window_start i window) i, data.getD j 0)
              / ((i - window_start i window + 1 : ℕ) : α)) ∧
        ∀ i, i < data.length →
          window_start i window ≤ i ∧ 1 ≤ i - window_start i window + 1 ∧
            ∀ j ∈ Finset.Icc (window_start i window) i,
              0 ≤ window_start i window ∧ window_start i window ≤ j ∧ j ≤ i ∧ i < data.length
                ∧ ∃ h : j < data.length, data.getD j 0 = data.get ⟨j, h⟩) ∧
      ((sort_data data).length = data.length ∧
        (data.length % 2 = 0 →
          1 ≤ data.length / 2 ∧
            ∃ h : data.length / 2 - 1 < (sort_data data).length,
              (sort_data data).getD (data.length / 2 - 1) 0
                = (sort_data data).get ⟨data.length / 2 - 1, h⟩) ∧
        (∃ h : data.length / 2 < (sort_data data).length,
          (sort_data data).getD (data.length / 2) 0
            = (sort_data data).get ⟨data.length / 2, h⟩) ∧
        ∃ mean stdev, calculateStats sqrt data =
          [mean,
            if data.length % 2 = 0 then
              ((sort_data data).getD (data.length / 2 - 1) 0
                + (sort_data data).getD (data.length / 2) 0) / 2
            else (sort_data data).getD (data.length / 2) 0,
            stdev]) := by
  have hpos : 0 < data.length := List.length_pos.mpr hne
  have hl : (sort_data data).length = data.length := std_sort_length data
  refine ⟨⟨?_, fun hlen k hk => ?_⟩, ⟨calculate_rolling_mean_eq data window, fun i hi => ?_⟩,
    hl, fun h => ?_, ?_, ?_⟩
  · rw [calculate_percentiles_eq data hne, hl]
  · have hle := percentile_index_le (5 * k) (sort_data data).length (by omega) (by omega)
      (by omega)
    have hlt : percentile_index (5 * k) (sort_data data).length < (sort_data data).length := by
      omega
    have e := calculate_percentiles_getD data hne k hk
    rw [← hl] at e
    refine ⟨hle, hlt, ?_⟩
    rw [e, List.getD_eq_getElem _ _ hlt]
    rfl
  · have hs := window_start_le i window
    refine ⟨hs, by omega, fun j hj => ?_⟩
    rw [Finset.mem_Icc] at hj
    have hj' : j < data.length := by omega
    exact ⟨Nat.zero_le _, hj.1, hj.2, hi, hj', by rw [List.getD_eq_getElem _ _ hj']; rfl⟩
  · have h1 : data.length / 2 - 1 < (sort_data data).length := by omega
    exact ⟨by omega, h1, by rw [List.getD_eq_getElem _ _ h1]; rfl⟩
  · have h2 : data.length / 2 < (sort_data data).length := by omega
    exact ⟨h2, by rw [List.getD_eq_getElem _ _ h2]; rfl⟩
  · rw [calculateStats_eq sqrt data hne]
    exact ⟨_, _, rfl⟩

theorem indices_in_range_witness :
    ([3, 1, 2, 4] : List ℚ) ≠ [] ∧ ([3, 1, 2, 4] : List ℚ).length ≤ 2 ^ 53 ∧
      ∀ k, k ≤ 20 →
        percentile_index (5 * k) (sort_data ([3, 1, 2, 4] : List ℚ)).length
            ≤ (sort_data ([3, 1, 2, 4] : List ℚ)).length - 1 ∧
          ∃ h : percentile_index (5 * k) (sort_data ([3, 1, 2, 4] : List ℚ)).length
              < (sort_data ([3, 1, 2, 4] : List ℚ)).length,
            (calculate_percentiles ([3, 1, 2, 4] : List ℚ)).getD k 0
              = (sort_data ([3, 1, 2, 4] : List ℚ)).get
                ⟨percentile_index (5 * k) (sort_data ([3, 1, 2, 4] : List ℚ)).length, h⟩ :=
  ⟨by simp, by simp,
    (indices_in_range (fun x => x) ([3, 1, 2, 4] : List ℚ) 2 (by simp)).1.2 (by simp)⟩

end PercentileClaims

end DataProcessor
